import Mathlib

/-!
# Verification of the aipathways price-crawler repository

Shallow embedding of the three crawler variants in
`src/projects/price_crawler/`:

* `your_crawler_script.py`    (class `APIPriceCrawler`, "api" model below)
* `your_crawler_script_v1.py` (class `AutoPriceCrawler`, "v1" model below)
* `your_crawler_script_v2.py` (class `EnhancedPriceCrawler`, "v2" model below)

Conventions of the embedding:

* Python `float` prices are modelled as `ℚ`.  All the properties checked
  here are order/arithmetic facts (range checks, `1/rate`, `min`/`max`/mean,
  `round(x, 2)`) on values produced by exact decimal parsing, where the
  rational idealisation agrees with IEEE semantics on the comparisons made.
* Python strings are modelled as `String`, manipulated through `List Char`
  (`String.data`) so that every function kernel-reduces.
* The regular expressions of `extract_price_from_text` are hand-compiled to
  matchers over `List Char` with Python `re.search` semantics: scan start
  positions left to right, and at each position follow the backtracking
  preference order (greedy quantifiers first).  Where a backtracking branch
  of the original pattern can never succeed, the matcher omits it and a
  comment justifies the omission.
* Network fetching is modelled by oracle environments: a record of the
  responses the remote services would give.  The code paths that raise
  `requests.RequestException` are the `none`/failure cases of the oracles.
-/

/-! ## Character classes and basic scanning helpers -/

/-- Python regex `[\$£€¥]`, the currency-symbol class used by the price
patterns of both `v1` and `v2` `extract_price_from_text`. -/
def isCurrencySym (c : Char) : Bool :=
  c = '$' || c = '£' || c = '€' || c = '¥'

/-- Python regex `\s` restricted to the ASCII whitespace actually reachable
in the crawler's inputs. -/
def isWsChar (c : Char) : Bool :=
  c = ' ' || c = '\t' || c = '\n' || c = '\r'

/-- Maximal run of decimal digits: the greedy `\d+` / `\d*` step.
Returns (digits consumed, rest). -/
def takeDigits : List Char → List Char × List Char
  | [] => ([], [])
  | c :: t =>
    if c.isDigit then
      let p := takeDigits t
      (c :: p.1, p.2)
    else ([], c :: t)

/-- Greedy `\s*`. -/
def skipWs : List Char → List Char
  | [] => []
  | c :: t => if isWsChar c then skipWs t else c :: t

/-- Greedy `(?:\.\d{2})?`: the matched text (`".dd"` or `""`).  The optional
group is the last element of every pattern that uses it, so matching it
whenever possible is exactly the regex preference order. -/
def centsOf : List Char → List Char
  | '.' :: a :: b :: _ => if a.isDigit && b.isDigit then ['.', a, b] else []
  | _ => []

/-- Greedy `(?:\.\d{2})?` returning also the rest of the input, for the
patterns where material follows the optional group. -/
def centsSplit : List Char → Option (List Char × List Char)
  | '.' :: a :: b :: r => if a.isDigit && b.isDigit then some (['.', a, b], r) else none
  | _ => none

/-- `re.search`: try the pattern at every start position, left to right,
returning the first capture. -/
def searchGen (pAt : List Char → Option (List Char)) : List Char → Option (List Char)
  | [] => pAt []
  | c :: t =>
    match pAt (c :: t) with
    | some g => some g
    | none => searchGen pAt t

/-- Numeric value of a digit string (the digits of `match.group(1)`). -/
def digitsVal : List Char → Nat
  | [] => 0
  | c :: t => digitsVal t + (c.toNat - 48) * 10 ^ t.length

/-- Python `float(price_str)`, scaled by 100, on the shapes the patterns can
capture: digits optionally followed by `.` and two digits (commas are
removed by the caller before conversion).  Every such value is an exact
multiple of 1/100, so the model computes `100 * price` as a natural number
and divides by 100 only at the function boundary; this keeps every
comparison exact and the whole parser kernel-computable. -/
def centsValOfGroup (g : List Char) : Nat :=
  let p := takeDigits g
  match p.2 with
  | '.' :: a :: b :: _ => 100 * digitsVal p.1 + digitsVal [a, b]
  | _ => 100 * digitsVal p.1

/-! ## The six `v2` price patterns (`your_crawler_script_v2.py`, lines 101-108)

The input they run on has had every `','` and `' '` removed
(`text.replace(',', '').replace(' ', '')`). -/

/-- Pattern `[\$£€¥]\s*(\d+(?:\.\d{2})?)` at one start position.
Nothing follows the capture group, so the greedy parse is the match. -/
def v2p1At : List Char → Option (List Char)
  | [] => none
  | c :: t =>
    if isCurrencySym c then
      let p := takeDigits (skipWs t)
      if p.1 = [] then none else some (p.1 ++ centsOf p.2)
    else none

/-- `\s*` then a currency symbol: the tail of pattern 2. -/
def symAfterWs (l : List Char) : Bool :=
  match skipWs l with
  | c :: _ => isCurrencySym c
  | [] => false

/-- Pattern `(\d+(?:\.\d{2})?)\s*[\$£€¥]` at one start position.
Preference order: cents matched, then cents empty.  Giving digits back from
the greedy `\d+` can never help: the next character would then be a digit,
which starts neither `\.`, `\s` nor a currency symbol. -/
def v2p2At (l : List Char) : Option (List Char) :=
  let p := takeDigits l
  if p.1 = [] then none
  else
    match centsSplit p.2 with
    | some cr => if symAfterWs cr.2 then some (p.1 ++ cr.1)
                 else if symAfterWs p.2 then some p.1 else none
    | none => if symAfterWs p.2 then some p.1 else none

/-- Case-insensitive literal `USD` (the pattern compiles with
`re.IGNORECASE`). -/
def usdLit : List Char → Option (List Char)
  | u :: s :: d :: r =>
    if (u = 'U' || u = 'u') && (s = 'S' || s = 's') && (d = 'D' || d = 'd')
    then some r else none
  | _ => none

/-- Pattern `USD\s*(\d+(?:\.\d{2})?)` at one start position. -/
def v2p3At (l : List Char) : Option (List Char) :=
  match usdLit l with
  | some r =>
    let p := takeDigits (skipWs r)
    if p.1 = [] then none else some (p.1 ++ centsOf p.2)
  | none => none

/-- `\s*` then `USD`: the tail of pattern 4. -/
def usdAfterWs (l : List Char) : Bool :=
  (usdLit (skipWs l)).isSome

/-- Pattern `(\d+(?:\.\d{2})?)\s*USD` at one start position (same
backtracking argument as pattern 2). -/
def v2p4At (l : List Char) : Option (List Char) :=
  let p := takeDigits l
  if p.1 = [] then none
  else
    match centsSplit p.2 with
    | some cr => if usdAfterWs cr.2 then some (p.1 ++ cr.1)
                 else if usdAfterWs p.2 then some p.1 else none
    | none => if usdAfterWs p.2 then some p.1 else none

/-- Case-insensitive literal `Price` (pattern 5's head). -/
def priceLit : List Char → Option (List Char)
  | p :: r :: i :: c :: e :: t =>
    if (p = 'P' || p = 'p') && (r = 'R' || r = 'r') && (i = 'I' || i = 'i')
        && (c = 'C' || c = 'c') && (e = 'E' || e = 'e')
    then some t else none
  | _ => none

/-- Greedy `[:\s]+` (must consume at least one character).  Maximality is
safe: a returned character would be `:` or whitespace, which starts neither
`\$` nor `\d`. -/
def takeSeps : List Char → List Char × List Char
  | [] => ([], [])
  | c :: t =>
    if c = ':' || isWsChar c then
      let p := takeSeps t
      (c :: p.1, p.2)
    else ([], c :: t)

/-- The optional `\$?` step: consume a leading `$` when present. -/
def dropDollarHead : List Char → List Char
  | '$' :: r => r
  | r => r

/-- Pattern `Price[:\s]+\$?(\d+(?:\.\d{2})?)` at one start position.
`\$?` consumes a `$` when present; if no digits follow the `$` the
empty branch would face the same `$` and fail too. -/
def v2p5At (l : List Char) : Option (List Char) :=
  match priceLit l with
  | some r =>
    let s := takeSeps r
    if s.1 = [] then none
    else
      let p := takeDigits (dropDollarHead s.2)
      if p.1 = [] then none else some (p.1 ++ centsOf p.2)
  | none => none

/-- Greedy `\d{1,3}`: up to three digits, at least one. -/
def takeUpTo3Digits : List Char → List Char × List Char
  | a :: b :: c :: r =>
    if a.isDigit then
      if b.isDigit then
        if c.isDigit then ([a, b, c], r) else ([a, b], c :: r)
      else ([a], b :: c :: r)
    else ([], a :: b :: c :: r)
  | a :: b :: r =>
    if a.isDigit then
      if b.isDigit then ([a, b], r) else ([a], b :: r)
    else ([], a :: b :: r)
  | [a] => if a.isDigit then ([a], []) else ([], [a])
  | [] => ([], [])

/-- Greedy `(?:,?\d{3})*`: as many `(,)ddd` groups as possible.  The star's
body always consumes, and nothing after the capture can fail, so the greedy
parse is the match. -/
def starThrees : List Char → List Char × List Char
  | ',' :: a :: b :: c :: r =>
    if a.isDigit && b.isDigit && c.isDigit then
      let p := starThrees r
      (',' :: a :: b :: c :: p.1, p.2)
    else ([], ',' :: a :: b :: c :: r)
  | a :: b :: c :: r =>
    if a.isDigit && b.isDigit && c.isDigit then
      let p := starThrees r
      (a :: b :: c :: p.1, p.2)
    else ([], a :: b :: c :: r)
  | r => ([], r)

/-- Pattern `\$(\d{1,3}(?:,?\d{3})*(?:\.\d{2})?)` at one start position. -/
def v2p6At : List Char → Option (List Char)
  | '$' :: t =>
    let h := takeUpTo3Digits t
    if h.1 = [] then none
    else
      let s := starThrees h.2
      some (h.1 ++ s.1 ++ centsOf s.2)
  | _ => none

/-- `text.replace(',', '')` on a character list. -/
def dropCommas (l : List Char) : List Char :=
  l.filter fun c => c ≠ ','

/-- `text.replace(',', '').replace(' ', '')` on a character list. -/
def dropCommasSpaces (l : List Char) : List Char :=
  l.filter fun c => c ≠ ',' && c ≠ ' '

/-- One step of the `v2` pattern loop: if the pattern matched, convert the
captured text with `float(match.group(1).replace(',', ''))` and keep the
value only if `0.01 < price < 10000000`; otherwise fall through to the next
pattern.  On 100-scaled values the range check is the exact integer check
`1 < n < 10 ^ 9`. -/
def v2Check (g : Option (List Char)) : Option Nat :=
  match g with
  | some g =>
    let n := centsValOfGroup (dropCommas g)
    if 1 < n ∧ n < 1000000000 then some n else none
  | none => none

/-- `EnhancedPriceCrawler.extract_price_from_text`
(`your_crawler_script_v2.py`, lines 87-121), returning `100 * price`. -/
def extractCents_v2 (s : String) : Option Nat :=
  let t := dropCommasSpaces s.data
  match v2Check (searchGen v2p1At t) with
  | some n => some n
  | none =>
  match v2Check (searchGen v2p2At t) with
  | some n => some n
  | none =>
  match v2Check (searchGen v2p3At t) with
  | some n => some n
  | none =>
  match v2Check (searchGen v2p4At t) with
  | some n => some n
  | none =>
  match v2Check (searchGen v2p5At t) with
  | some n => some n
  | none => v2Check (searchGen v2p6At t)

/-- `EnhancedPriceCrawler.extract_price_from_text` as a rational price. -/
def extractPriceFromText_v2 (s : String) : Option ℚ :=
  (extractCents_v2 s).map (fun n => (n : ℚ) / 100)

/-! ## Currency detection -/

/-- Bool substring containment (`p in l` on Python strings): empty pattern
is contained everywhere. -/
def listIsPref : List Char → List Char → Bool
  | [], _ => true
  | _ :: _, [] => false
  | a :: as, b :: bs => a = b && listIsPref as bs

/-- `pat` occurs as a contiguous substring of `l`. -/
def listContains (pat : List Char) : List Char → Bool
  | [] => listIsPref pat []
  | c :: t => listIsPref pat (c :: t) || listContains pat t

/-- Python `pat in hay` for strings. -/
def strContains (hay pat : String) : Bool :=
  listContains pat.data hay.data

/-- Python `str.upper()` restricted to ASCII case mapping. -/
def strUpper (s : String) : String :=
  ⟨s.data.map Char.toUpper⟩

/-- Python `str.lower()` restricted to ASCII case mapping. -/
def strLower (s : String) : String :=
  ⟨s.data.map Char.toLower⟩

/-- `EnhancedPriceCrawler.detect_currency`
(`your_crawler_script_v2.py`, lines 123-133): first match over the
insertion-ordered dict, defaulting to `$`. -/
def detectCurrency_v2 (text : String) : String :=
  let up := strUpper text
  let hit := fun (sym : String) => strContains up sym || strContains text sym
  if hit "$" then "$"
  else if hit "£" then "£"
  else if hit "€" then "€"
  else if hit "¥" then "¥"
  else if hit "USD" then "$"
  else if hit "GBP" then "£"
  else if hit "EUR" then "€"
  else if hit "JPY" then "¥"
  else "$"

/-- `AutoPriceCrawler.detect_currency` (`your_crawler_script_v1.py`,
lines 125-131): no upper-casing, no `JPY` entry. -/
def detectCurrency_v1 (text : String) : String :=
  let hit := fun (sym : String) => strContains text sym
  if hit "$" then "$"
  else if hit "£" then "£"
  else if hit "€" then "€"
  else if hit "¥" then "¥"
  else if hit "USD" then "$"
  else if hit "GBP" then "£"
  else if hit "EUR" then "€"
  else "$"

/-! ## The three `v1` price patterns (`your_crawler_script_v1.py`,
lines 110-114), run on `text.replace(',', '')` (spaces are kept). -/

/-- Greedy `(?:,\d{3})*` of `v1`'s first two patterns.  Each group needs a
literal comma; the caller strips commas first, so the star always matches
zero groups, but the branch is kept for faithfulness. -/
def starCommaThrees : List Char → List Char × List Char
  | ',' :: a :: b :: c :: r =>
    if a.isDigit && b.isDigit && c.isDigit then
      let p := starCommaThrees r
      (',' :: a :: b :: c :: p.1, p.2)
    else ([], ',' :: a :: b :: c :: r)
  | r => ([], r)

/-- Pattern `[\$£€¥]\s*(\d+(?:,\d{3})*(?:\.\d{2})?)` at one position. -/
def v1p1At : List Char → Option (List Char)
  | [] => none
  | c :: t =>
    if isCurrencySym c then
      let p := takeDigits (skipWs t)
      if p.1 = [] then none
      else
        let s := starCommaThrees p.2
        some (p.1 ++ s.1 ++ centsOf s.2)
    else none

/-- Pattern `(\d+(?:,\d{3})*(?:\.\d{2})?)\s*[\$£€¥]` at one position.
On comma-free input the comma star matches nothing, and the same
backtracking argument as `v2p2At` applies to `\d+`. -/
def v1p2At (l : List Char) : Option (List Char) :=
  let p := takeDigits l
  if p.1 = [] then none
  else
    let s := starCommaThrees p.2
    match centsSplit s.2 with
    | some cr => if symAfterWs cr.2 then some (p.1 ++ s.1 ++ cr.1)
                 else if symAfterWs s.2 then some (p.1 ++ s.1) else none
    | none => if symAfterWs s.2 then some (p.1 ++ s.1) else none

/-- Pattern `(\d+(?:\.\d{2})?)` at one position: any bare number. -/
def v1p3At (l : List Char) : Option (List Char) :=
  let p := takeDigits l
  if p.1 = [] then none else some (p.1 ++ centsOf p.2)

/-- `AutoPriceCrawler.extract_price_from_text`
(`your_crawler_script_v1.py`, lines 107-123): first matching pattern wins,
`float` of the capture with commas removed, and no range validation.
Returns `100 * price`. -/
def extractCents_v1 (s : String) : Option Nat :=
  let t := dropCommas s.data
  let conv := fun (g : List Char) => centsValOfGroup (dropCommas g)
  match searchGen v1p1At t with
  | some g => some (conv g)
  | none =>
  match searchGen v1p2At t with
  | some g => some (conv g)
  | none =>
  match searchGen v1p3At t with
  | some g => some (conv g)
  | none => none

/-- `AutoPriceCrawler.extract_price_from_text` as a rational price. -/
def extractPriceFromText_v1 (s : String) : Option ℚ :=
  (extractCents_v1 s).map (fun n => (n : ℚ) / 100)

/-! ## Python `round(x, 2)` -/

/-- Round to the nearest integer, ties to even (Python's `round`). -/
def roundHalfEven (q : ℚ) : ℤ :=
  let f := ⌊q⌋
  let r := q - (f : ℚ)
  if r < 1 / 2 then f
  else if 1 / 2 < r then f + 1
  else if 2 ∣ f then f else f + 1

/-- Python `round(x, 2)` on the rational idealisation of `float`. -/
def round2 (q : ℚ) : ℚ :=
  (roundHalfEven (q * 100) : ℚ) / 100

/-! ## Parsed HTML documents

`BeautifulSoup` documents are abstracted by the observations the crawler
makes of them: the first element matched by a one-element selector query
(`select_one`), the element list matched by a selector query (`select`),
and the visible text.  Elements carry their attribute dictionary and their
`get_text(strip=True)` rendering (empty for `<meta>` tags, which have no
text content). -/

/-- First value bound to a key in an association list (Python dict
lookup for the dictionaries modelled here). -/
def lookupFirst : List (String × String) → String → Option String
  | [], _ => none
  | p :: t, k => if p.1 = k then some p.2 else lookupFirst t k

/-- An HTML element as the crawler observes it. -/
structure Elem where
  attrs : List (String × String)
  text : String
deriving DecidableEq

/-- Python `element.get(name)`: `None` when the attribute is absent. -/
def Elem.attr (e : Elem) (k : String) : Option String :=
  lookupFirst e.attrs k

/-- A parsed HTML document as the crawler observes it.  `textLines` is the
list comprehension `[line.strip() for line in get_text().split('\n') if
line.strip()]` of `v2`; `bodyText` is the raw `get_text()` that `v1`'s
full-text strategy scans. -/
structure Doc where
  selOne : String → Option Elem
  sel : String → List Elem
  textLines : List String
  bodyText : String
  h1 : Option String
  titleTxt : Option String

/-- A normalized price record produced by the web-scraping variants
(`v1`/`v2` `smart_crawl_url` and kin). -/
structure CrawlRec where
  item_name : String
  title : String
  price : ℚ
  currency : String
  url : String
  timestamp : String
  source : String
deriving DecidableEq

/-- Title derivation shared by `v1` and `v2`: first `h1`, else `title`,
else the item name; page-derived titles are truncated to 100 characters. -/
def docTitle (doc : Doc) (name : String) : String :=
  match doc.h1 with
  | some t => ⟨t.data.take 100⟩
  | none =>
    match doc.titleTxt with
    | some t => ⟨t.data.take 100⟩
    | none => name

/-! ### `v2` strategy cascade (`your_crawler_script_v2.py`, lines 238-305)

All strategy results are `(100 * price, price_text)` pairs. -/

/-- The meta-tag selectors of `v2` strategy 1, in probe order. -/
def metaSelectors_v2 : List String :=
  ["meta[property=\"product:price:amount\"]",
   "meta[property=\"og:price:amount\"]",
   "meta[name=\"price\"]",
   "meta[itemprop=\"price\"]"]

/-- `v2` strategy 1: first meta tag present with a truthy `content`
attribute whose content parses to a price. -/
def strat1_v2 (doc : Doc) : Option (Nat × String) :=
  metaSelectors_v2.findSome? fun s =>
    match doc.selOne s with
    | some meta =>
      match meta.attr "content" with
      | some c =>
        if c ≠ "" then
          match extractCents_v2 c with
          | some n => some (n, c)
          | none => none
        else none
      | none => none
    | none => none

/-- The CSS selectors of `v2` strategy 2, in probe order. -/
def priceSelectors_v2 : List String :=
  ["[itemprop=\"price\"]", ".price", "#price", "span.price",
   ".product-price", ".sale-price", "[class*=\"price\"]", "[data-price]"]

/-- Text-content half of `v2` strategy 2's per-element check. -/
def elemTextPrice_v2 (e : Elem) : Option (Nat × String) :=
  if e.text ≠ "" then
    match extractCents_v2 e.text with
    | some n => some (n, e.text)
    | none => none
  else none

/-- Per-element check of `v2` strategy 2: a truthy `data-price` attribute
is preferred; if it is absent, empty, or fails to parse, the element's
rendered text is tried. -/
def elemPrice_v2 (e : Elem) : Option (Nat × String) :=
  match e.attr "data-price" with
  | some dp =>
    if dp ≠ "" then
      match extractCents_v2 dp with
      | some n => some (n, dp)
      | none => elemTextPrice_v2 e
    else elemTextPrice_v2 e
  | none => elemTextPrice_v2 e

/-- `v2` strategy 2: first selector whose element list yields a price. -/
def strat2_v2 (doc : Doc) : Option (Nat × String) :=
  priceSelectors_v2.findSome? fun s => (doc.sel s).findSome? elemPrice_v2

/-- `v2` strategy 3: first short line containing `$` or `price` whose
extraction lands in `0.01 < p < 100000` (the integer check on `100 * p`). -/
def strat3_v2 (doc : Doc) : Option (Nat × String) :=
  doc.textLines.findSome? fun line =>
    if line.data.length < 200 ∧
        (strContains line "$" ∨ strContains (strLower line) "price") then
      match extractCents_v2 line with
      | some n => if 1 < n ∧ n < 10000000 then some (n, line) else none
      | none => none
    else none

/-- `EnhancedPriceCrawler.smart_crawl_url` after a successful fetch
(`your_crawler_script_v2.py`, lines 238-324): meta tags, then CSS
selectors, then full-text scan.  `url`/`host`/`now` stand for the request
URL, `urlparse(url).netloc` and `datetime.now().isoformat()`. -/
def smartCrawlUrl_v2 (doc : Doc) (url host now name : String) : Option CrawlRec :=
  let r :=
    match strat1_v2 doc with
    | some pr => some pr
    | none =>
      match strat2_v2 doc with
      | some pr => some pr
      | none => strat3_v2 doc
  match r with
  | none => none
  | some pr =>
    some { item_name := name, title := docTitle doc name,
           price := (pr.1 : ℚ) / 100, currency := detectCurrency_v2 pr.2,
           url := url, timestamp := now, source := host }

/-! ### `v1` strategy cascade (`your_crawler_script_v1.py`, lines 150-208):
CSS selectors first, then the meta tag, then the full-text regex scan. -/

/-- The CSS selectors of `v1` strategy 1, in probe order (the meta-tag
selector is part of this list; a `<meta>` element's `get_text()` is empty,
so it can never yield a price in this pass). -/
def priceSelectors_v1 : List String :=
  ["[class*=\"price\"]", "[id*=\"price\"]", "span.price", "div.price",
   "p.price", ".product-price", ".current-price", ".sale-price",
   "[itemprop=\"price\"]", "span[class*=\"amount\"]",
   "meta[property=\"product:price:amount\"]"]

/-- `v1` strategy 1: first element whose text parses to a price with
`0.01 < p < 1000000` (the integer check on `100 * p`). -/
def strat1_v1 (doc : Doc) : Option (Nat × String) :=
  priceSelectors_v1.findSome? fun s =>
    (doc.sel s).findSome? fun e =>
      match extractCents_v1 e.text with
      | some n => if 1 < n ∧ n < 100000000 then some (n, e.text) else none
      | none => none

/-- `v1` strategy 2: the `product:price:amount` meta tag.  Only Python
truthiness is checked on the parsed value (`if price:`), so any nonzero
price is accepted with no range validation. -/
def strat2_v1 (doc : Doc) : Option (Nat × String) :=
  match doc.selOne "meta[property=\"product:price:amount\"]" with
  | some meta =>
    match meta.attr "content" with
    | some c =>
      if c ≠ "" then
        match extractCents_v1 c with
        | some n => if n ≠ 0 then some (n, c) else none
        | none => none
      else none
    | none => none
  | none => none

/-- Case-insensitive literal `cost`. -/
def costLit : List Char → Option (List Char)
  | c :: o :: s :: t :: r =>
    if (c = 'C' || c = 'c') && (o = 'O' || o = 'o') && (s = 'S' || s = 's')
        && (t = 'T' || t = 't')
    then some r else none
  | _ => none

/-- Case-insensitive literal `buy`. -/
def buyLit : List Char → Option (List Char)
  | b :: u :: y :: r =>
    if (b = 'B' || b = 'b') && (u = 'U' || u = 'u') && (y = 'Y' || y = 'y')
    then some r else none
  | _ => none

/-- The alternation `(?:price|cost|buy)` in preference order, returning
(matched text, rest). -/
def kwLit (l : List Char) : Option (List Char × List Char)  :=
  match priceLit l with
  | some r => some (l.take 5, r)
  | none =>
    match costLit l with
    | some r => some (l.take 4, r)
    | none =>
      match buyLit l with
      | some r => some (l.take 3, r)
      | none => none

/-- Greedy `\s*` returning (consumed, rest). -/
def splitWs : List Char → List Char × List Char
  | [] => ([], [])
  | c :: t =>
    if isWsChar c then
      let p := splitWs t
      (c :: p.1, p.2)
    else ([], c :: t)

/-- The pattern `(?:price|cost|buy)[\s:]*[\$£€¥]?\s*(\d+(?:,\d{3})*(?:\.\d{2})?)`
of `v1` strategy 3 (`re.IGNORECASE`) at one start position, returning
(full matched text, rest after the match).  `[\s:]*` is taken maximally,
which is safe because a returned separator character starts neither `\$`
nor `\s`-then-digit in a way the maximal run does not already allow. -/
def v1p7At (l : List Char) : Option (List Char × List Char) :=
  match kwLit l with
  | some kr =>
    let seps := takeSeps kr.2
    let symSplit : List Char × List Char :=
      match seps.2 with
      | c :: r => if isCurrencySym c then ([c], r) else ([], c :: r)
      | [] => ([], [])
    let ws := splitWs symSplit.2
    let d := takeDigits ws.2
    if d.1 = [] then none
    else
      let s := starCommaThrees d.2
      let cs := centsOf s.2
      some (kr.1 ++ seps.1 ++ symSplit.1 ++ ws.1 ++ d.1 ++ s.1 ++ cs,
            (s.2).drop cs.length)
  | none => none

/-- `re.finditer` for `v1` strategy 3: all non-overlapping matches, left to
right.  The fuel argument is the input length; every match consumes at
least one character. -/
def allMatchesP7 : Nat → List Char → List (List Char)
  | 0, _ => []
  | _ + 1, [] => []
  | fuel + 1, c :: t =>
    match v1p7At (c :: t) with
    | some mr => mr.1 :: allMatchesP7 fuel mr.2
    | none => allMatchesP7 fuel t

/-- `v1` strategy 3: scan the whole page text for labelled price patterns;
first match whose extraction lands in `0.01 < p < 1000000` wins. -/
def strat3_v1 (doc : Doc) : Option (Nat × String) :=
  let body := doc.bodyText.data
  (allMatchesP7 (body.length + 1) body).findSome? fun m =>
    match extractCents_v1 ⟨m⟩ with
    | some n => if 1 < n ∧ n < 100000000 then some (n, ⟨m⟩) else none
    | none => none

/-- `AutoPriceCrawler.smart_crawl_url` after a successful fetch
(`your_crawler_script_v1.py`, lines 150-208): CSS selectors, then the meta
tag, then the full-text scan. -/
def smartCrawlUrl_v1 (doc : Doc) (url host now name : String) : Option CrawlRec :=
  let r :=
    match strat1_v1 doc with
    | some pr => some pr
    | none =>
      match strat2_v1 doc with
      | some pr => some pr
      | none => strat3_v1 doc
  match r with
  | none => none
  | some pr =>
    some { item_name := name, title := docTitle doc name,
           price := (pr.1 : ℚ) / 100, currency := detectCurrency_v1 pr.2,
           url := url, timestamp := now, source := host }

/-! ## The API-based crawler (`your_crawler_script.py`, class `APIPriceCrawler`)

Remote services are modelled by an oracle environment holding the
responses they would return; request exceptions and non-2xx statuses are
the failure cases of the oracle fields. -/

/-- The per-id entry of the CoinGecko response
`{id: {usd: ..., usd_24h_change: ...}}`; either key may be absent. -/
structure CryptoEntry where
  usd : Option ℚ
  usd24hChange : Option ℚ
deriving DecidableEq

/-- Oracle for the remote services of `APIPriceCrawler`, plus the capture
timestamp.  `metalsOk` is `response.status_code == 200` for
metalpriceapi; `metalsRates code` is `data['rates'][code]` when both keys
are present; `goldapiOk`/`goldapiPrice` model the fallback endpoint;
`hasAlphaKey` is `'alphavantage' in self.api_keys`; `alphaSeries` is the
`data['data']` value list. -/
structure ApiEnv where
  cryptoData : String → Option CryptoEntry
  metalsOk : Bool
  metalsRates : String → Option ℚ
  goldapiOk : Bool
  goldapiPrice : Option ℚ
  hasAlphaKey : Bool
  alphaSeries : List ℚ
  now : String

/-- A price record of the API crawler (the dictionaries built by the
`fetch_*` methods; `unit` and `change_24h` are present only for some
sources). -/
structure ApiRecord where
  item_name : String
  title : String
  price : ℚ
  currency : String
  unit : Option String
  change24h : Option ℚ
  source : String
  api : String
  timestamp : String
  url : String
deriving DecidableEq

/-- Python `str.title()` restricted to ASCII: upper-case each letter that
starts an alphabetic run, lower-case the rest. -/
def pyTitleChars : Bool → List Char → List Char
  | _, [] => []
  | prevAlpha, c :: t =>
    if c.isAlpha then
      (if prevAlpha then c.toLower else c.toUpper) :: pyTitleChars true t
    else c :: pyTitleChars false t

/-- Python `str.title()`. -/
def pyTitle (s : String) : String := ⟨pyTitleChars false s.data⟩

/-- `APIPriceCrawler.fetch_crypto_price` (`your_crawler_script.py`,
lines 99-149): requires the id and its `usd` key; `usd_24h_change`
defaults to `0` via `.get(..., 0)` and is rounded to 2 decimals. -/
def fetchCryptoPrice (env : ApiEnv) (cryptoId name : String) : Option ApiRecord :=
  match env.cryptoData cryptoId with
  | some e =>
    match e.usd with
    | some p =>
      some { item_name := name, title := pyTitle name ++ " (Cryptocurrency)",
             price := p, currency := "$", unit := none,
             change24h := some (round2 (e.usd24hChange.getD 0)),
             source := "CoinGecko API", api := "coingecko",
             timestamp := env.now,
             url := "https://www.coingecko.com/en/coins/" ++ cryptoId }
    | none => none
  | none => none

/-- `APIPriceCrawler.fetch_metal_price_alternative`
(`your_crawler_script.py`, lines 209-256). -/
def fetchMetalPriceAlt (env : ApiEnv) (name : String) : Option ApiRecord :=
  if env.goldapiOk then
    match env.goldapiPrice with
    | some p =>
      some { item_name := name, title := pyTitle name ++ " per Troy Ounce",
             price := round2 p, currency := "$", unit := some "troy oz",
             change24h := none, source := "Gold API", api := "goldapi",
             timestamp := env.now, url := "https://www.goldapi.io/" }
    | none => none
  else none

/-- `APIPriceCrawler.fetch_metal_price` (`your_crawler_script.py`,
lines 151-207): on a 200 response with the rate present, the recorded
price is `round(1 / rate, 2)` when `rate > 0` and `round(0, 2) = 0`
otherwise — no range validation.  On a non-200 response the fallback
endpoint is tried; on a 200 response lacking the rate the method returns
`None` without trying the fallback. -/
def fetchMetalPrice (env : ApiEnv) (code name : String) : Option ApiRecord :=
  if env.metalsOk then
    match env.metalsRates code with
    | some rate =>
      let price : ℚ := if rate > 0 then 1 / rate else 0
      some { item_name := name, title := pyTitle name ++ " per Troy Ounce",
             price := round2 price, currency := "$", unit := some "troy oz",
             change24h := none, source := "Metal Price API",
             api := "metalpriceapi", timestamp := env.now,
             url := "https://www.metalpriceapi.com/" }
    | none => none
  else fetchMetalPriceAlt env name

/-- `APIPriceCrawler.fetch_commodity_price` (`your_crawler_script.py`,
lines 258-317): abstains immediately without a configured Alpha Vantage
key; otherwise takes the first (most recent) series value. -/
def fetchCommodityPrice (env : ApiEnv) (name : String) : Option ApiRecord :=
  if env.hasAlphaKey then
    match env.alphaSeries with
    | v :: _ =>
      some { item_name := name, title := pyTitle name ++ " per Barrel",
             price := round2 v, currency := "$", unit := some "barrel",
             change24h := none, source := "Alpha Vantage",
             api := "alphavantage", timestamp := env.now,
             url := "https://www.alphavantage.co/" }
    | [] => none
  else none

/-- `self.crypto_map` in insertion order. -/
def cryptoMap : List (String × String) :=
  [("bitcoin", "bitcoin"), ("btc", "bitcoin"), ("ethereum", "ethereum"),
   ("eth", "ethereum"), ("litecoin", "litecoin"), ("ltc", "litecoin"),
   ("ripple", "ripple"), ("xrp", "ripple"), ("cardano", "cardano"),
   ("ada", "cardano")]

/-- `self.metal_map` in insertion order. -/
def metalMap : List (String × String) :=
  [("gold", "XAU"), ("silver", "XAG"), ("platinum", "XPT"),
   ("palladium", "XPD")]

/-- `self.commodity_map` in insertion order. -/
def commodityMap : List (String × String) :=
  [("crude oil", "WTI"), ("oil", "WTI"), ("wti", "WTI"),
   ("brent", "BRENT"), ("natural gas", "NG")]

/-- Python `str.strip()` on a character list. -/
def trimChars (l : List Char) : List Char :=
  ((l.dropWhile (fun c => isWsChar c)).reverse.dropWhile (fun c => isWsChar c)).reverse

/-- `item_name.lower().strip()` (ASCII case mapping). -/
def pyLowerStrip (s : String) : String :=
  ⟨trimChars (s.data.map Char.toLower)⟩

/-- First table entry whose key occurs as a substring of the lowered item
name (`for key, id in map.items(): if key in item_lower`). -/
def firstKeyMatch (table : List (String × String)) (low : String) :
    Option (String × String) :=
  table.find? fun p => strContains low p.1

/-- `APIPriceCrawler.search_item` (`your_crawler_script.py`,
lines 319-349): the crypto table is consulted first, then metals, then
commodities; unmatched items yield `None`. -/
def searchItem (env : ApiEnv) (name : String) : Option ApiRecord :=
  let low := pyLowerStrip name
  match firstKeyMatch cryptoMap low with
  | some p => fetchCryptoPrice env p.2 name
  | none =>
    match firstKeyMatch metalMap low with
    | some p => fetchMetalPrice env p.2 name
    | none =>
      match firstKeyMatch commodityMap low with
      | some _ => fetchCommodityPrice env name
      | none => none

/-- `APIPriceCrawler.search_multiple_items` (`your_crawler_script.py`,
lines 351-378): per-item results plus the growing `price_history` list
(every truthy result is appended). -/
def searchMultipleItems (env : ApiEnv) (items : List String) :
    List (String × Option ApiRecord) × List ApiRecord :=
  items.foldl
    (fun acc item =>
      let r := searchItem env item
      (acc.1 ++ [(item, r)],
       acc.2 ++ (match r with | some rcd => [rcd] | none => [])))
    ([], [])

/-! ## CSV export

Exported records are modelled as association lists from field name to
rendered cell text; only the key structure and the missing-field behaviour
are at issue in the claims. -/

/-- Field names of a record, in insertion order. -/
def recKeys (r : List (String × String)) : List String := r.map Prod.fst

/-- Bool membership for field-name lists. -/
def memStr (k : String) : List String → Bool
  | [] => false
  | x :: t => if x = k then true else memStr k t

/-- Set-insert keeping first-occurrence order. -/
def addKey (acc : List String) (k : String) : List String :=
  if memStr k acc then acc else acc ++ [k]

/-- `all_keys = set(); for record in history: all_keys.update(record.keys())`. -/
def unionKeys (hist : List (List (String × String))) : List String :=
  hist.foldl (fun acc r => (recKeys r).foldl addKey acc) []

/-- Python string `<`/`≤`: lexicographic comparison by code point. -/
def lexLe : List Char → List Char → Bool
  | [], _ => true
  | _ :: _, [] => false
  | a :: as, b :: bs =>
    if a.toNat < b.toNat then true
    else if b.toNat < a.toNat then false
    else lexLe as bs

/-- `a ≤ b` for Python strings. -/
def strLe (a b : String) : Bool := lexLe a.data b.data

/-- Insertion step of `sorted(...)`. -/
def insertSorted (x : String) : List String → List String
  | [] => [x]
  | y :: ys => if strLe x y then x :: y :: ys else y :: insertSorted x ys

/-- Python `sorted(...)` on field names (ascending lexicographic). -/
def sortKeys : List String → List String
  | [] => []
  | x :: xs => insertSorted x (sortKeys xs)

/-- `APIPriceCrawler.save_to_csv` (`your_crawler_script.py`,
lines 410-425): empty history saves nothing; otherwise the header is the
sorted union of all record keys and rows follow `csv.DictWriter`
semantics with the default `restval` (missing fields render as `''`).
Returns (header, rows). -/
def saveToCsv_api (hist : List (List (String × String))) :
    Option (List String × List (List String)) :=
  if hist = [] then none
  else
    let fields := sortKeys (unionKeys hist)
    some (fields, hist.map fun r => fields.map fun k => (lookupFirst r k).getD "")

/-- `save_to_csv` of `v1` (`your_crawler_script_v1.py`, lines 353-363) and
`v2` (`your_crawler_script_v2.py`, lines 485-496): the header is
`self.price_history[0].keys()` — the first record's fields in insertion
order.  `csv.DictWriter`'s default `extrasaction='raise'` raises
`ValueError` on any record with a field outside the header (modelled as
`none`); fields of the header missing from a record render as `''`. -/
def saveToCsv_v1v2 (hist : List (List (String × String))) :
    Option (List String × List (List String)) :=
  match hist with
  | [] => none
  | r0 :: _ =>
    let fields := recKeys r0
    if hist.all fun r => (recKeys r).all fun k => memStr k fields then
      some (fields, hist.map fun r => fields.map fun k => (lookupFirst r k).getD "")
    else none

/-! ## Comparison statistics (`compare_prices`, identical in `v1`
lines 281-311 and `v2` lines 413-443) -/

/-- One entry of a comparison's `prices` list. -/
structure PriceEntry where
  source : String
  price : ℚ
  currency : String
  url : String
deriving DecidableEq

/-- The per-item comparison value. -/
structure Summary where
  prices : List PriceEntry
  lowest : Option ℚ
  highest : Option ℚ
  average : Option ℚ
deriving DecidableEq

/-- Projection of a crawl record into a comparison entry. -/
def mkEntry (r : CrawlRec) : PriceEntry :=
  { source := r.source, price := r.price, currency := r.currency, url := r.url }

/-- The summary built for one item's non-empty record list: the fields stay
`None` only when `prices_data` is empty, which cannot happen for a
non-empty record list. -/
def mkSummary (l : List CrawlRec) : Summary :=
  let ps := l.map fun r => r.price
  { prices := l.map mkEntry,
    lowest := if ps = [] then none else ps.min?,
    highest := if ps = [] then none else ps.max?,
    average := if ps = [] then none else some (ps.sum / ps.length) }

/-- `compare_prices`: items with an empty record list are skipped
(`if not price_list: continue`); every other item gets min/max/mean of its
`price` fields. -/
def comparePrices (results : List (String × List CrawlRec)) :
    List (String × Summary) :=
  results.filterMap fun p => if p.2 = [] then none else some (p.1, mkSummary p.2)

/-! ## The per-item crawl loop (`search_and_crawl`) -/

/-- The URL loop shared by `v1` (`your_crawler_script_v1.py`,
lines 242-256) and `v2` (`your_crawler_script_v2.py`, lines 372-383):
crawl each candidate in order, append successes, and break as soon as the
success cap is reached.  Returns (successful records, number of crawl
attempts made). -/
def crawlLoop {α : Type} (f : α → Option CrawlRec) (cap : Nat) :
    List α → List CrawlRec → List CrawlRec × Nat
  | [], found => (found, 0)
  | u :: us, found =>
    match f u with
    | some r =>
      let found2 := found ++ [r]
      if cap ≤ found2.length then (found2, 1)
      else
        let p := crawlLoop f cap us found2
        (p.1, p.2 + 1)
    | none =>
      let p := crawlLoop f cap us found
      (p.1, p.2 + 1)

/-- The candidate-URL portion of `AutoPriceCrawler.search_and_crawl`:
`min_results` (default 3) caps the successes. -/
def searchAndCrawl_v1 {α : Type} (f : α → Option CrawlRec) (minResults : Nat)
    (urls : List α) : List CrawlRec × Nat :=
  crawlLoop f minResults urls []

/-- The candidate-URL portion of `EnhancedPriceCrawler.search_and_crawl`:
the slice `urls[:self.max_results]` with the success cap hard-coded to 3. -/
def searchAndCrawl_v2 {α : Type} (f : α → Option CrawlRec) (maxResults : Nat)
    (urls : List α) : List CrawlRec × Nat :=
  crawlLoop f 3 (urls.take maxResults) []

-- Sanity checks of the parser embedding (concrete evaluations).
/-! ## Well-formed price syntaxes

The specification speaks of "well-formed price syntax (currency prefix,
suffix, labelled, or comma-grouped)".  `renderPrice` renders the three
comma-free shapes from a digit run and two cent digits; `groupedChars`
renders the comma-grouped currency-prefixed shape from a leading group
and a list of three-digit groups. -/

inductive PriceSyntax
  | dollarBefore
  | dollarAfter
  | labelled
deriving DecidableEq

/-- A well-formed amount `ds.c1c2` in one of the three comma-free price
syntaxes: `$da.cc`, `da.cc$`, or `Price: da.cc`. -/
def renderPrice : PriceSyntax → List Char → Char → Char → List Char
  | PriceSyntax.dollarBefore, ds, c1, c2 => '$' :: ds ++ ['.', c1, c2]
  | PriceSyntax.dollarAfter, ds, c1, c2 => ds ++ ['.', c1, c2, '$']
  | PriceSyntax.labelled, ds, c1, c2 =>
      'P' :: 'r' :: 'i' :: 'c' :: 'e' :: ':' :: ' ' :: (ds ++ ['.', c1, c2])

/-- The comma-grouped currency-prefixed shape `$g0,g,g,... .c1c2`
(e.g. `"$1,234.56"` is `groupedChars ['1'] [['2','3','4']] '5' '6'`). -/
def groupedChars (g0 : List Char) (gs : List (List Char)) (c1 c2 : Char) :
    List Char :=
  '$' :: (g0 ++ (gs.map (fun g => ',' :: g)).join) ++ ['.', c1, c2]

example : extractCents_v2 "$1,234.56" = some 123456 := by decide
example : extractCents_v2 "$0.01" = none := by decide
example : extractCents_v2 "$10,000,000.00" = some 10000000 := by decide
example : extractCents_v1 "$10,000,000.00" = some 1000000000 := by decide
example : extractCents_v1 "no digits here!" = none := by decide
example : extractCents_v1 "item 7" = some 700 := by decide
example : detectCurrency_v2 "$1,234.56" = "$" := by decide
example : round2 (25 / 1000) = 2 / 100 := by
  unfold round2 roundHalfEven
  norm_num

/-! ## Helper lemmas -/

theorem round2_zero : round2 0 = 0 := by
  unfold round2 roundHalfEven
  norm_num

/-- The history list built by `search_multiple_items` is exactly the list
of successful per-item results, in item order. -/
theorem searchMultipleItems_history (env : ApiEnv) (items : List String) :
    (searchMultipleItems env items).2 = items.filterMap (searchItem env) := by
  have key : ∀ (l : List String) (acc1 : List (String × Option ApiRecord))
      (acc2 : List ApiRecord),
      (l.foldl (fun acc item =>
        let r := searchItem env item
        (acc.1 ++ [(item, r)],
         acc.2 ++ (match r with | some rcd => [rcd] | none => []))) (acc1, acc2)).2
      = acc2 ++ l.filterMap (searchItem env) := by
    intro l
    induction l with
    | nil => intro acc1 acc2; simp
    | cons a t ih =>
      intro acc1 acc2
      simp only [List.foldl_cons, List.filterMap_cons]
      rw [ih]
      cases h : searchItem env a <;> simp
  simpa [searchMultipleItems] using key items [] []

/-! ## C10: the cryptocurrency adapter and `usd_24h_change` -/

/-- C10: a CoinGecko response entry that has the `usd` price still yields a
record when `usd_24h_change` is missing, with `change_24h = 0`; in general
the recorded `change_24h` is the API's 24h change (0 when absent) rounded
to 2 decimals. -/
theorem crypto_change24h_spec (env : ApiEnv) (cid name : String)
    (e : CryptoEntry) (p : ℚ)
    (hdata : env.cryptoData cid = some e) (husd : e.usd = some p) :
    (∃ r, fetchCryptoPrice env cid name = some r ∧ r.price = p ∧
      r.change24h = some (round2 (e.usd24hChange.getD 0))) ∧
    (e.usd24hChange = none →
      ∃ r, fetchCryptoPrice env cid name = some r ∧ r.change24h = some 0) := by
  constructor
  · simp only [fetchCryptoPrice, hdata, husd]
    exact ⟨_, rfl, rfl, rfl⟩
  · intro hch
    simp only [fetchCryptoPrice, hdata, husd]
    exact ⟨_, rfl, by simp [hch, round2_zero]⟩

/-- Concrete CoinGecko oracle: the requested id resolves to an entry with a
`usd` price and no `usd_24h_change` key. -/
def envCryptoNoChange : ApiEnv :=
  { cryptoData := fun _ => some { usd := some 65000, usd24hChange := none },
    metalsOk := false, metalsRates := fun _ => none,
    goldapiOk := false, goldapiPrice := none,
    hasAlphaKey := false, alphaSeries := [], now := "" }

theorem crypto_change24h_witness :
    ∃ r, fetchCryptoPrice envCryptoNoChange "bitcoin" "Bitcoin" = some r ∧
      r.change24h = some 0 :=
  (crypto_change24h_spec envCryptoNoChange "bitcoin" "Bitcoin"
    { usd := some 65000, usd24hChange := none } 65000 rfl rfl).2 rfl

/-! ## C5: classification precedence in `search_item` -/

/-- C5: the cryptocurrency table is consulted strictly before the metal and
commodity tables: any item name whose lowered form contains a crypto alias
— in particular one that also contains a metal name — dispatches to
`fetch_crypto_price` on the first matching alias, never to the metal or
commodity path. -/
theorem searchItem_crypto_precedence (env : ApiEnv) (name : String)
    (hc : ∃ p ∈ cryptoMap, strContains (pyLowerStrip name) p.1 = true)
    (_hm : ∃ q ∈ metalMap, strContains (pyLowerStrip name) q.1 = true) :
    ∃ p ∈ cryptoMap, strContains (pyLowerStrip name) p.1 = true ∧
      searchItem env name = fetchCryptoPrice env p.2 name := by
  have hsome : (firstKeyMatch cryptoMap (pyLowerStrip name)).isSome := by
    unfold firstKeyMatch
    rw [List.find?_isSome]
    exact hc
  obtain ⟨p, hp⟩ := Option.isSome_iff_exists.mp hsome
  have hp' : List.find? (fun q => strContains (pyLowerStrip name) q.1) cryptoMap
      = some p := hp
  have hpred := List.find?_some hp'
  exact ⟨p, List.mem_of_find?_eq_some hp', hpred, by
    simp only [searchItem, hp]⟩

/-! ## C2: strategy order of the locator cascade -/

/-- C2 (amended, `v2`): `v2`'s `smart_crawl_url` tries the metadata
strategy first — whenever the `product:price:amount` meta tag is present
with a truthy `content` attribute that parses to a price, the returned
record carries that price, regardless of what any CSS-selector-matched
element or page line contains. -/
theorem smartCrawl_meta_first_v2 (doc : Doc) (url host now name : String)
    (e : Elem) (c : String) (n : Nat)
    (hsel : doc.selOne "meta[property=\"product:price:amount\"]" = some e)
    (hattr : e.attr "content" = some c) (hne : c ≠ "")
    (hex : extractCents_v2 c = some n) :
    (smartCrawlUrl_v2 doc url host now name).map (fun r => r.price)
      = some ((n : ℚ) / 100) := by
  have h1 : strat1_v2 doc = some (n, c) := by
    simp only [strat1_v2, metaSelectors_v2, List.findSome?_cons, hsel, hattr, hne,
      hex, ne_eq, not_false_eq_true, if_true]
  simp [smartCrawlUrl_v2, h1]

/-- A meta tag carrying a parseable price. -/
def metaElemW : Elem := { attrs := [("content", "$7.00")], text := "" }

/-- A CSS-selector-matched element with a conflicting price. -/
def cssElemW : Elem := { attrs := [], text := "$5.00" }

/-- A document with both a valid metadata price tag (`$7.00`) and a
conflicting CSS-selector price (`$5.00`). -/
def docMetaCss : Doc :=
  { selOne := fun s =>
      if s = "meta[property=\"product:price:amount\"]" then some metaElemW else none,
    sel := fun s => if s = ".price" then [cssElemW] else [],
    textLines := [], bodyText := "", h1 := none, titleTxt := none }

theorem smartCrawl_meta_first_v2_witness :
    (smartCrawlUrl_v2 docMetaCss "u" "h" "t" "gold").map (fun r => r.price)
      = some (((700 : Nat) : ℚ) / 100) :=
  smartCrawl_meta_first_v2 docMetaCss "u" "h" "t" "gold" metaElemW "$7.00" 700
    (by decide) (by decide) (by decide) (by decide)

/-- The same document in `v1` form: the meta tag's content (`7.00`) parses
under `v1`'s bare-number pattern, and a `[class*="price"]` element carries
the conflicting `$5.00`. -/
def docMetaCss_v1 : Doc :=
  { selOne := fun s =>
      if s = "meta[property=\"product:price:amount\"]" then
        some { attrs := [("content", "7.00")], text := "" }
      else none,
    sel := fun s =>
      if s = "[class*=\"price\"]" then [{ attrs := [], text := "$5.00" }] else [],
    textLines := [], bodyText := "", h1 := none, titleTxt := none }

/-- C2 counterexample: `v1`'s `smart_crawl_url` runs the CSS-selector
strategy before the metadata strategy, so on a document with both a valid
metadata price (7.00) and a conflicting CSS-selector price (5.00) it
returns the CSS price, not the metadata price. -/
theorem smartCrawl_meta_first_v1_counterexample :
    (smartCrawlUrl_v1 docMetaCss_v1 "u" "h" "t" "gold").map (fun r => r.price)
      = some (((500 : Nat) : ℚ) / 100) ∧
    strat2_v1 docMetaCss_v1 = some (700, "7.00") ∧
    (((500 : Nat) : ℚ) / 100 = 5) ∧ ((5 : ℚ) ≠ 7) := by
  have h1 : strat1_v1 docMetaCss_v1 = some (500, "$5.00") := by decide
  refine ⟨?_, by decide, by norm_num, by norm_num⟩
  simp [smartCrawlUrl_v1, h1]

/-! ## C1: the range invariant of the API crawler's price history -/

/-- The invariant `0.01 < price < 10,000,000` claimed for history
records. -/
def inPriceRange (q : ℚ) : Prop := 1 / 100 < q ∧ q < 10000000

/-- Oracle on which the metals endpoint answers 200 with a rate of `0`. -/
def envMetalZero : ApiEnv :=
  { cryptoData := fun _ => none, metalsOk := true,
    metalsRates := fun _ => some 0, goldapiOk := false, goldapiPrice := none,
    hasAlphaKey := false, alphaSeries := [], now := "" }

/-- C1 counterexample: with a non-positive metals rate the adapter records
a price of `0` (`price = 1/rate if rate > 0 else 0` with no range check),
and that record enters `price_history` — the claimed invariant
`0.01 < price < 10,000,000` fails on the history. -/
theorem price_history_range_counterexample :
    (searchMultipleItems envMetalZero ["Gold"]).2.map (fun r => r.price)
      = [round2 0] ∧ round2 0 = 0 ∧
    ¬ ((1 : ℚ) / 100 < 0 ∧ (0 : ℚ) < 10000000) := by
  refine ⟨?_, round2_zero, by norm_num⟩
  rw [searchMultipleItems_history]
  have h1 : firstKeyMatch cryptoMap (pyLowerStrip "Gold") = none := by decide
  have h2 : firstKeyMatch metalMap (pyLowerStrip "Gold") = some ("gold", "XAU") := by
    decide
  simp only [List.filterMap_cons, List.filterMap_nil, searchItem, h1, h2]
  have h3 : fetchMetalPrice envMetalZero "XAU" "Gold"
      = some { item_name := "Gold", title := pyTitle "Gold" ++ " per Troy Ounce",
               price := round2 0, currency := "$", unit := some "troy oz",
               change24h := none, source := "Metal Price API",
               api := "metalpriceapi", timestamp := "",
               url := "https://www.metalpriceapi.com/" } := by
    simp only [fetchMetalPrice, envMetalZero, if_true]
    norm_num
  rw [h3]
  rfl

/-- Inversion for the crypto adapter: a returned record's price is the
`usd` value of the response entry. -/
theorem fetchCryptoPrice_price (env : ApiEnv) (cid name : String)
    (r : ApiRecord) (h : fetchCryptoPrice env cid name = some r) :
    ∃ e p, env.cryptoData cid = some e ∧ e.usd = some p ∧ r.price = p := by
  unfold fetchCryptoPrice at h
  cases hd : env.cryptoData cid with
  | none => simp only [hd] at h; exact absurd h (by simp)
  | some e =>
    simp only [hd] at h
    cases hu : e.usd with
    | none => simp only [hu] at h; exact absurd h (by simp)
    | some p =>
      simp only [hu] at h
      injection h with h
      exact ⟨e, p, rfl, hu, by rw [← h]⟩

/-- Inversion for the metals adapter: a returned price is either
`round2 (1/rate if rate > 0 else 0)` from the primary endpoint or
`round2 p` from the fallback. -/
theorem fetchMetalPrice_price (env : ApiEnv) (code name : String)
    (r : ApiRecord) (h : fetchMetalPrice env code name = some r) :
    (∃ rate, env.metalsRates code = some rate ∧
      r.price = round2 (if rate > 0 then 1 / rate else 0)) ∨
    (∃ p, env.goldapiPrice = some p ∧ r.price = round2 p) := by
  unfold fetchMetalPrice at h
  by_cases hok : env.metalsOk
  · rw [if_pos hok] at h
    cases hr : env.metalsRates code with
    | none => simp only [hr] at h; exact absurd h (by simp)
    | some rate =>
      simp only [hr] at h
      injection h with h
      exact Or.inl ⟨rate, rfl, by rw [← h]⟩
  · rw [if_neg hok] at h
    unfold fetchMetalPriceAlt at h
    by_cases hg : env.goldapiOk
    · rw [if_pos hg] at h
      cases hp : env.goldapiPrice with
      | none => simp only [hp] at h; exact absurd h (by simp)
      | some p =>
        simp only [hp] at h
        injection h with h
        exact Or.inr ⟨p, rfl, by rw [← h]⟩
    · rw [if_neg hg] at h
      cases h

/-- Inversion for the commodity adapter. -/
theorem fetchCommodityPrice_price (env : ApiEnv) (name : String)
    (r : ApiRecord) (h : fetchCommodityPrice env name = some r) :
    ∃ v t, env.alphaSeries = v :: t ∧ r.price = round2 v := by
  unfold fetchCommodityPrice at h
  by_cases hk : env.hasAlphaKey
  · rw [if_pos hk] at h
    cases hs : env.alphaSeries with
    | nil => simp only [hs] at h; exact absurd h (by simp)
    | cons v t =>
      simp only [hs] at h
      injection h with h
      exact ⟨v, t, rfl, by rw [← h]⟩
  · rw [if_neg hk] at h
    cases h

/-- The amended hypothesis: every price the adapters can compute from the
oracle's responses lies in the claimed range.  (The crawler itself never
checks this — see the counterexample.) -/
def envPricesInRange (env : ApiEnv) : Prop :=
  (∀ cid e p, env.cryptoData cid = some e → e.usd = some p → inPriceRange p) ∧
  (∀ code rate, env.metalsRates code = some rate →
    inPriceRange (round2 (if rate > 0 then 1 / rate else 0))) ∧
  (∀ p, env.goldapiPrice = some p → inPriceRange (round2 p)) ∧
  (∀ v t, env.alphaSeries = v :: t → inPriceRange (round2 v))

/-- C1 (amended): the API crawler performs no numeric-range validation of
its own; every record appended to `price_history` carries the price its
adapter computed, so the invariant `0.01 < price < 10,000,000` holds on
the whole history exactly when every adapter-computable price from the
responses is in range. -/
theorem price_history_range_amended (env : ApiEnv) (h : envPricesInRange env)
    (items : List String) :
    ∀ r ∈ (searchMultipleItems env items).2, inPriceRange r.price := by
  intro r hr
  rw [searchMultipleItems_history] at hr
  obtain ⟨item, _hitem, hsi⟩ := List.mem_filterMap.mp hr
  unfold searchItem at hsi
  cases hc : firstKeyMatch cryptoMap (pyLowerStrip item) with
  | some p =>
    simp only [hc] at hsi
    obtain ⟨e, q, hd, hu, hpr⟩ := fetchCryptoPrice_price env p.2 item r hsi
    rw [hpr]
    exact h.1 p.2 e q hd hu
  | none =>
    simp only [hc] at hsi
    cases hm : firstKeyMatch metalMap (pyLowerStrip item) with
    | some p =>
      simp only [hm] at hsi
      rcases fetchMetalPrice_price env p.2 item r hsi with
        ⟨rate, hrr, hpr⟩ | ⟨q, hg, hpr⟩
      · rw [hpr]; exact h.2.1 p.2 rate hrr
      · rw [hpr]; exact h.2.2.1 q hg
    | none =>
      simp only [hm] at hsi
      cases hco : firstKeyMatch commodityMap (pyLowerStrip item) with
      | some p =>
        simp only [hco] at hsi
        obtain ⟨v, t, hs, hpr⟩ := fetchCommodityPrice_price env item r hsi
        rw [hpr]
        exact h.2.2.2 v t hs
      | none =>
        simp only [hco] at hsi
        exact absurd hsi (by simp)

/-- Oracle for the in-range witness: the only reachable adapter output is
a crypto price of 65000. -/
def envInRangeW : ApiEnv :=
  { cryptoData := fun _ => some { usd := some 65000, usd24hChange := none },
    metalsOk := false, metalsRates := fun _ => none,
    goldapiOk := false, goldapiPrice := none,
    hasAlphaKey := false, alphaSeries := [], now := "" }

/-- The record `search_item` produces on `envInRangeW` for "Bitcoin". -/
def recBitcoinW : ApiRecord :=
  { item_name := "Bitcoin", title := pyTitle "Bitcoin" ++ " (Cryptocurrency)",
    price := 65000, currency := "$", unit := none,
    change24h := some (round2 0), source := "CoinGecko API", api := "coingecko",
    timestamp := "", url := "https://www.coingecko.com/en/coins/" ++ "bitcoin" }

theorem price_history_range_amended_witness : inPriceRange recBitcoinW.price := by
  have hmem : recBitcoinW ∈ (searchMultipleItems envInRangeW ["Bitcoin"]).2 := by
    have hh : (searchMultipleItems envInRangeW ["Bitcoin"]).2 = [recBitcoinW] := rfl
    rw [hh]
    exact List.mem_singleton.mpr rfl
  refine price_history_range_amended envInRangeW ?_ ["Bitcoin"] recBitcoinW hmem
  refine ⟨?_, ?_, ?_, ?_⟩
  · intro cid e p hd hu
    injection hd with hd
    rw [← hd] at hu
    injection hu with hu
    rw [← hu]
    constructor <;> norm_num
  · intro code rate hr
    simp [envInRangeW] at hr
  · intro p hp
    simp [envInRangeW] at hp
  · intro v t hs
    simp [envInRangeW] at hs

/-! ## C9: totality of the `v1` text parser -/

theorem searchGen_eq_none {pAt : List Char → Option (List Char)} :
    ∀ l, (∀ t, t <:+ l → pAt t = none) → searchGen pAt l = none := by
  intro l
  induction l with
  | nil =>
    intro h
    simpa [searchGen] using h [] (List.suffix_refl [])
  | cons c t ih =>
    intro h
    have h0 := h (c :: t) (List.suffix_refl _)
    simp only [searchGen, h0]
    exact ih fun t' ht' => h t' (ht'.trans (List.suffix_cons c t))

theorem takeDigits_eq_nil (l : List Char) (h : ∀ c ∈ l, ¬ c.isDigit = true) :
    takeDigits l = ([], l) := by
  cases l with
  | nil => rfl
  | cons c t => simp [takeDigits, h c (List.mem_cons_self c t)]

theorem mem_skipWs : ∀ (l : List Char), ∀ c ∈ skipWs l, c ∈ l := by
  intro l
  induction l with
  | nil => intro c hc; cases hc
  | cons x t ih =>
    intro c hc
    simp only [skipWs] at hc
    by_cases hw : isWsChar x = true
    · rw [if_pos hw] at hc
      exact List.mem_cons_of_mem _ (ih c hc)
    · rw [if_neg hw] at hc
      exact hc

theorem v1p1At_eq_none_of_nodigit (l : List Char)
    (h : ∀ c ∈ l, ¬ c.isDigit = true) : v1p1At l = none := by
  cases l with
  | nil => rfl
  | cons c t =>
    simp only [v1p1At]
    by_cases hs : isCurrencySym c = true
    · rw [if_pos hs]
      have hd : takeDigits (skipWs t) = ([], skipWs t) :=
        takeDigits_eq_nil _ fun x hx =>
          h x (List.mem_cons_of_mem _ (mem_skipWs t x hx))
      simp [hd]
    · rw [if_neg hs]

theorem v1p2At_eq_none_of_nodigit (l : List Char)
    (h : ∀ c ∈ l, ¬ c.isDigit = true) : v1p2At l = none := by
  have hd : takeDigits l = ([], l) := takeDigits_eq_nil l h
  simp [v1p2At, hd]

theorem v1p3At_eq_none_of_nodigit (l : List Char)
    (h : ∀ c ∈ l, ¬ c.isDigit = true) : v1p3At l = none := by
  have hd : takeDigits l = ([], l) := takeDigits_eq_nil l h
  simp [v1p3At, hd]

theorem searchGen_v1p3_isSome : ∀ (l : List Char),
    (∃ c ∈ l, c.isDigit = true) → ∃ g, searchGen v1p3At l = some g := by
  intro l
  induction l with
  | nil =>
    rintro ⟨c, hc, -⟩
    cases hc
  | cons c t ih =>
    intro h
    by_cases hd : c.isDigit = true
    · have hne : v1p3At (c :: t) ≠ none := by
        simp [v1p3At, takeDigits, hd]
      cases hv : v1p3At (c :: t) with
      | none => exact absurd hv hne
      | some g => exact ⟨g, by simp [searchGen, hv]⟩
    · cases hv : v1p3At (c :: t) with
      | some g2 => exact ⟨g2, by simp [searchGen, hv]⟩
      | none =>
        obtain ⟨c', hc', hd'⟩ := h
        rcases List.mem_cons.mp hc' with rfl | hm
        · exact absurd hd' hd
        · obtain ⟨g, hg⟩ := ih ⟨c', hm, hd'⟩
          exact ⟨g, by simp [searchGen, hv, hg]⟩

/-- C9: the `v1` `extract_price_from_text` returns a value on every text
containing a decimal digit (its third pattern matches any bare number) and
abstains exactly on digit-free texts; it applies no range validation of
its own. -/
theorem extract_v1_total (s : String) :
    (extractPriceFromText_v1 s).isSome = true ↔ ∃ c ∈ s.data, c.isDigit = true := by
  rw [show (extractPriceFromText_v1 s).isSome = (extractCents_v1 s).isSome by
    cases h : extractCents_v1 s <;> simp [extractPriceFromText_v1, h]]
  unfold extractCents_v1
  constructor
  · intro h
    by_contra hno
    push_neg at hno
    have hnof : ∀ c ∈ dropCommas s.data, ¬ c.isDigit = true :=
      fun c hc => hno c (List.mem_filter.mp hc).1
    have h1 : searchGen v1p1At (dropCommas s.data) = none :=
      searchGen_eq_none _ fun t' ht' =>
        v1p1At_eq_none_of_nodigit t' fun c hc => hnof c (ht'.subset hc)
    have h2 : searchGen v1p2At (dropCommas s.data) = none :=
      searchGen_eq_none _ fun t' ht' =>
        v1p2At_eq_none_of_nodigit t' fun c hc => hnof c (ht'.subset hc)
    have h3 : searchGen v1p3At (dropCommas s.data) = none :=
      searchGen_eq_none _ fun t' ht' =>
        v1p3At_eq_none_of_nodigit t' fun c hc => hnof c (ht'.subset hc)
    simp [h1, h2, h3] at h
  · rintro ⟨c, hc, hd⟩
    have hcm : c ∈ dropCommas s.data := by
      refine List.mem_filter.mpr ⟨hc, ?_⟩
      simp only [decide_eq_true_eq]
      intro he
      subst he
      exact absurd hd (by decide)
    obtain ⟨g3, hg3⟩ := searchGen_v1p3_isSome _ ⟨c, hcm, hd⟩
    cases h1 : searchGen v1p1At (dropCommas s.data) with
    | some g => simp [h1]
    | none =>
      cases h2 : searchGen v1p2At (dropCommas s.data) with
      | some g => simp [h1, h2]
      | none => simp [h1, h2, hg3]

/-! ## C3/C4 infrastructure: facts about digit characters and the scanners -/

theorem digit_not_sym {c : Char} (h : c.isDigit = true) : isCurrencySym c = false := by
  by_contra hc
  rw [Bool.not_eq_false] at hc
  have h4 : c = '$' ∨ c = '£' ∨ c = '€' ∨ c = '¥' := by
    simpa [isCurrencySym, or_assoc] using hc
  rcases h4 with rfl | rfl | rfl | rfl <;> exact absurd h (by decide)

theorem digit_not_ws {c : Char} (h : c.isDigit = true) : isWsChar c = false := by
  by_contra hc
  rw [Bool.not_eq_false] at hc
  have h4 : c = ' ' ∨ c = '\t' ∨ c = '\n' ∨ c = '\r' := by
    simpa [isWsChar, or_assoc] using hc
  rcases h4 with rfl | rfl | rfl | rfl <;> exact absurd h (by decide)

theorem digit_ne_of {c d : Char} (h : c.isDigit = true) (hd : d.isDigit = false) :
    c ≠ d := by
  intro he
  subst he
  rw [h] at hd
  cases hd

theorem mem_of_head? {α : Type} {l : List α} {c : α} (h : l.head? = some c) :
    c ∈ l := by
  cases l with
  | nil => cases h
  | cons x t =>
    injection h with h
    exact h ▸ List.mem_cons_self x t

theorem takeDigits_append (ds rest : List Char)
    (hds : ∀ c ∈ ds, c.isDigit = true)
    (hr : ∀ c, rest.head? = some c → c.isDigit = false) :
    takeDigits (ds ++ rest) = (ds, rest) := by
  induction ds with
  | nil =>
    cases rest with
    | nil => rfl
    | cons c r => simp [takeDigits, hr c rfl]
  | cons d ds' ih =>
    have hd := hds d (List.mem_cons_self d ds')
    simp [takeDigits, hd, ih fun c hc => hds c (List.mem_cons_of_mem d hc)]

theorem takeDigits_none (l : List Char)
    (hr : ∀ c, l.head? = some c → c.isDigit = false) :
    takeDigits l = ([], l) := takeDigits_append [] l (by simp) hr

theorem takeDigits_parts : ∀ l : List Char,
    (takeDigits l).1 ++ (takeDigits l).2 = l := by
  intro l
  induction l with
  | nil => rfl
  | cons c t ih =>
    simp only [takeDigits]
    by_cases hc : c.isDigit = true
    · simp [hc, ih]
    · simp [hc]

theorem mem_takeDigits_rest (l : List Char) {c : Char}
    (h : c ∈ (takeDigits l).2) : c ∈ l := by
  rw [← takeDigits_parts l]
  exact List.mem_append.mpr (Or.inr h)

theorem takeDigits_all_digits : ∀ (l : List Char), ∀ c ∈ (takeDigits l).1,
    c.isDigit = true := by
  intro l
  induction l with
  | nil => intro c hc; cases hc
  | cons x t ih =>
    intro c hc
    simp only [takeDigits] at hc
    by_cases hx : x.isDigit = true
    · rw [if_pos hx] at hc
      rcases List.mem_cons.mp hc with rfl | hc'
      · exact hx
      · exact ih c hc'
    · rw [if_neg hx] at hc
      cases hc

theorem skipWs_noWs (l : List Char)
    (hr : ∀ c, l.head? = some c → isWsChar c = false) : skipWs l = l := by
  cases l with
  | nil => rfl
  | cons c t => simp [skipWs, hr c rfl]

theorem centsSplit_inv (l : List Char) (pr : List Char × List Char)
    (h : centsSplit l = some pr) :
    ∃ a b, a.isDigit = true ∧ b.isDigit = true ∧
      l = '.' :: a :: b :: pr.2 ∧ pr.1 = ['.', a, b] := by
  unfold centsSplit at h
  split at h
  · rename_i a b r
    split at h
    · rename_i hab
      injection h with h
      rw [← h]
      exact ⟨a, b, (Bool.and_eq_true _ _).mp hab |>.1,
        (Bool.and_eq_true _ _).mp hab |>.2, rfl, rfl⟩
    · cases h
  · cases h

theorem centsOf_digits (c1 c2 : Char) (h1 : c1.isDigit = true)
    (h2 : c2.isDigit = true) (r : List Char) :
    centsOf ('.' :: c1 :: c2 :: r) = ['.', c1, c2] := by
  simp [centsOf, h1, h2]

/-- All the characters of a suffix-like part reached by the pattern-2/4
machinery stay inside the scanned fragment. -/
theorem mem_centsSplit_rest (l : List Char) (pr : List Char × List Char)
    (h : centsSplit l = some pr) {c : Char} (hc : c ∈ pr.2) : c ∈ l := by
  obtain ⟨a, b, -, -, hl, -⟩ := centsSplit_inv l pr h
  rw [hl]
  exact List.mem_cons_of_mem _ (List.mem_cons_of_mem _ (List.mem_cons_of_mem _ hc))

/-! ### Pattern failure under character-class constraints -/

theorem usdLit_none (l : List Char)
    (hU : ∀ c, l.head? = some c → c ≠ 'U' ∧ c ≠ 'u') : usdLit l = none := by
  cases l with
  | nil => rfl
  | cons u r =>
    cases r with
    | nil => rfl
    | cons s r2 =>
      cases r2 with
      | nil => rfl
      | cons d r3 =>
        have hu := hU u rfl
        simp [usdLit, hu.1, hu.2]

theorem priceLit_none (l : List Char)
    (hP : ∀ c, l.head? = some c → c ≠ 'P' ∧ c ≠ 'p') : priceLit l = none := by
  cases l with
  | nil => rfl
  | cons p r =>
    cases r with
    | nil => rfl
    | cons a r2 =>
      cases r2 with
      | nil => rfl
      | cons b r3 =>
        cases r3 with
        | nil => rfl
        | cons c r4 =>
          cases r4 with
          | nil => rfl
          | cons d r5 =>
            have hp := hP p rfl
            simp [priceLit, hp.1, hp.2]

theorem v2p3At_none (l : List Char)
    (hU : ∀ c ∈ l, c ≠ 'U' ∧ c ≠ 'u') : v2p3At l = none := by
  unfold v2p3At
  rw [usdLit_none l fun c hc => hU c (mem_of_head? hc)]

theorem usdAfterWs_false (l : List Char)
    (hU : ∀ c ∈ l, c ≠ 'U' ∧ c ≠ 'u') : usdAfterWs l = false := by
  unfold usdAfterWs
  rw [usdLit_none (skipWs l) fun c hc => hU c (mem_skipWs l c (mem_of_head? hc))]
  rfl

theorem v2p4At_none (l : List Char)
    (hU : ∀ c ∈ l, c ≠ 'U' ∧ c ≠ 'u') : v2p4At l = none := by
  unfold v2p4At
  by_cases hp : (takeDigits l).1 = []
  · simp [hp]
  · simp only [if_neg hp]
    have hrest : ∀ c ∈ (takeDigits l).2, c ≠ 'U' ∧ c ≠ 'u' :=
      fun c hc => hU c (mem_takeDigits_rest l hc)
    cases hcs : centsSplit (takeDigits l).2 with
    | none => simp [usdAfterWs_false _ hrest]
    | some cr =>
      simp [usdAfterWs_false _ fun c hc => hrest c (mem_centsSplit_rest _ cr hcs hc),
        usdAfterWs_false _ hrest]

theorem searchGen_v2p3_none (l : List Char)
    (hU : ∀ c ∈ l, c ≠ 'U' ∧ c ≠ 'u') : searchGen v2p3At l = none :=
  searchGen_eq_none l fun t' ht' => v2p3At_none t' fun c hc => hU c (ht'.subset hc)

theorem searchGen_v2p4_none (l : List Char)
    (hU : ∀ c ∈ l, c ≠ 'U' ∧ c ≠ 'u') : searchGen v2p4At l = none :=
  searchGen_eq_none l fun t' ht' => v2p4At_none t' fun c hc => hU c (ht'.subset hc)

theorem v2p5At_none (l : List Char)
    (hP : ∀ c ∈ l, c ≠ 'P' ∧ c ≠ 'p') : v2p5At l = none := by
  unfold v2p5At
  rw [priceLit_none l fun c hc => hP c (mem_of_head? hc)]

theorem searchGen_v2p5_none (l : List Char)
    (hP : ∀ c ∈ l, c ≠ 'P' ∧ c ≠ 'p') : searchGen v2p5At l = none :=
  searchGen_eq_none l fun t' ht' => v2p5At_none t' fun c hc => hP c (ht'.subset hc)

theorem v2p1At_none_noSym (l : List Char)
    (hS : ∀ c ∈ l, isCurrencySym c = false) : v2p1At l = none := by
  cases l with
  | nil => rfl
  | cons c t => simp [v2p1At, hS c (List.mem_cons_self c t)]

theorem searchGen_v2p1_none_noSym (l : List Char)
    (hS : ∀ c ∈ l, isCurrencySym c = false) : searchGen v2p1At l = none :=
  searchGen_eq_none l fun t' ht' =>
    v2p1At_none_noSym t' fun c hc => hS c (ht'.subset hc)

theorem symAfterWs_false (l : List Char)
    (hS : ∀ c ∈ l, isCurrencySym c = false) : symAfterWs l = false := by
  unfold symAfterWs
  cases hw : skipWs l with
  | nil => rfl
  | cons c t =>
    have : c ∈ skipWs l := hw ▸ List.mem_cons_self c t
    exact hS c (mem_skipWs l c this)

theorem v2p2At_none_noSym (l : List Char)
    (hS : ∀ c ∈ l, isCurrencySym c = false) : v2p2At l = none := by
  unfold v2p2At
  by_cases hp : (takeDigits l).1 = []
  · simp [hp]
  · simp only [if_neg hp]
    have hrest : ∀ c ∈ (takeDigits l).2, isCurrencySym c = false :=
      fun c hc => hS c (mem_takeDigits_rest l hc)
    cases hcs : centsSplit (takeDigits l).2 with
    | none => simp [symAfterWs_false _ hrest]
    | some cr =>
      simp [symAfterWs_false _ fun c hc => hrest c (mem_centsSplit_rest _ cr hcs hc),
        symAfterWs_false _ hrest]

theorem searchGen_v2p2_none_noSym (l : List Char)
    (hS : ∀ c ∈ l, isCurrencySym c = false) : searchGen v2p2At l = none :=
  searchGen_eq_none l fun t' ht' =>
    v2p2At_none_noSym t' fun c hc => hS c (ht'.subset hc)

theorem v2p6At_none_noDollar (l : List Char)
    (hD : ∀ c, l.head? = some c → c ≠ '$') : v2p6At l = none := by
  cases l with
  | nil => rfl
  | cons c t =>
    have hc : c ≠ '$' := hD c rfl
    unfold v2p6At
    split
    · rename_i t2 heq
      injection heq with h1 h2
      exact absurd h1 hc
    · rfl

theorem searchGen_v2p6_none_noDollar (l : List Char)
    (hD : ∀ c ∈ l, c ≠ '$') : searchGen v2p6At l = none :=
  searchGen_eq_none l fun t' ht' =>
    v2p6At_none_noDollar t' fun c hc => hD c (ht'.subset (mem_of_head? hc))

/-! ### Positive-match and value lemmas for the well-formed price forms -/

theorem searchGen_of_head (pAt : List Char → Option (List Char)) (l : List Char)
    (g : List Char) (h : pAt l = some g) : searchGen pAt l = some g := by
  cases l with
  | nil => simpa [searchGen] using h
  | cons c t => simp [searchGen, h]

theorem digitsVal_append (a b : List Char) :
    digitsVal (a ++ b) = digitsVal a * 10 ^ b.length + digitsVal b := by
  induction a with
  | nil => simp [digitsVal]
  | cons c a' ih =>
    simp only [List.cons_append, digitsVal, List.length_append, List.append_eq, ih]
    ring

theorem digitsVal_le_of_append (a b : List Char) :
    digitsVal a ≤ digitsVal (a ++ b) := by
  rw [digitsVal_append]
  have hp : 0 < 10 ^ b.length := pow_pos (by norm_num) _
  have h1 : digitsVal a ≤ digitsVal a * 10 ^ b.length :=
    Nat.le_mul_of_pos_right _ hp
  omega

theorem centsValOfGroup_std (ds : List Char) (c1 c2 : Char) (r : List Char)
    (hds : ∀ c ∈ ds, c.isDigit = true) :
    centsValOfGroup (ds ++ '.' :: c1 :: c2 :: r)
      = 100 * digitsVal ds + digitsVal [c1, c2] := by
  unfold centsValOfGroup
  rw [takeDigits_append ds _ hds fun c hc => by
    injection hc with hc
    subst hc
    decide]
  rfl

theorem centsValOfGroup_digits (g : List Char)
    (hg : ∀ c ∈ g, c.isDigit = true) :
    centsValOfGroup g = 100 * digitsVal g := by
  have h := takeDigits_append g [] hg (by simp)
  rw [List.append_nil] at h
  unfold centsValOfGroup
  rw [h]

theorem dropCommas_eq_self (l : List Char) (h : ∀ c ∈ l, c ≠ ',') :
    dropCommas l = l :=
  List.filter_eq_self.mpr fun a ha => by simp [h a ha]

theorem dropCommasSpaces_eq_self (l : List Char)
    (h : ∀ c ∈ l, c ≠ ',' ∧ c ≠ ' ') : dropCommasSpaces l = l :=
  List.filter_eq_self.mpr fun a ha => by simp [(h a ha).1, (h a ha).2]

/-- Character classification of the cleaned `$`-before form. -/
theorem stdBefore_class (ds : List Char) (c1 c2 : Char)
    (hds : ∀ c ∈ ds, c.isDigit = true) :
    ∀ c ∈ '$' :: ds ++ ['.', c1, c2],
      c.isDigit = true ∨ c = '$' ∨ c = '.' ∨ c = c1 ∨ c = c2 := by
  intro c hc
  rcases List.mem_cons.mp hc with rfl | hc
  · exact Or.inr (Or.inl rfl)
  rcases List.mem_append.mp hc with hc | hc
  · exact Or.inl (hds c hc)
  · simp only [List.mem_cons, List.mem_singleton] at hc
    rcases hc with rfl | rfl | rfl | h0
    · exact Or.inr (Or.inr (Or.inl rfl))
    · exact Or.inr (Or.inr (Or.inr (Or.inl rfl)))
    · exact Or.inr (Or.inr (Or.inr (Or.inr rfl)))
    · cases h0

/-- Character classification of the cleaned `$`-after form. -/
theorem stdAfter_class (ds : List Char) (c1 c2 : Char)
    (hds : ∀ c ∈ ds, c.isDigit = true) :
    ∀ c ∈ ds ++ ['.', c1, c2, '$'],
      c.isDigit = true ∨ c = '$' ∨ c = '.' ∨ c = c1 ∨ c = c2 := by
  intro c hc
  rcases List.mem_append.mp hc with hc | hc
  · exact Or.inl (hds c hc)
  · simp only [List.mem_cons, List.mem_singleton] at hc
    rcases hc with rfl | rfl | rfl | rfl | h0
    · exact Or.inr (Or.inr (Or.inl rfl))
    · exact Or.inr (Or.inr (Or.inr (Or.inl rfl)))
    · exact Or.inr (Or.inr (Or.inr (Or.inr rfl)))
    · exact Or.inr (Or.inl rfl)
    · cases h0

/-- Character classification of the cleaned labelled form. -/
theorem labelled_class (ds : List Char) (c1 c2 : Char)
    (hds : ∀ c ∈ ds, c.isDigit = true) :
    ∀ c ∈ 'P' :: 'r' :: 'i' :: 'c' :: 'e' :: ':' :: ds ++ ['.', c1, c2],
      c.isDigit = true ∨ c = 'P' ∨ c = 'r' ∨ c = 'i' ∨ c = 'c' ∨ c = 'e' ∨
        c = ':' ∨ c = '.' ∨ c = c1 ∨ c = c2 := by
  intro c hc
  rcases List.mem_cons.mp hc with rfl | hc
  · exact Or.inr (Or.inl rfl)
  rcases List.mem_cons.mp hc with rfl | hc
  · exact Or.inr (Or.inr (Or.inl rfl))
  rcases List.mem_cons.mp hc with rfl | hc
  · exact Or.inr (Or.inr (Or.inr (Or.inl rfl)))
  rcases List.mem_cons.mp hc with rfl | hc
  · exact Or.inr (Or.inr (Or.inr (Or.inr (Or.inl rfl))))
  rcases List.mem_cons.mp hc with rfl | hc
  · exact Or.inr (Or.inr (Or.inr (Or.inr (Or.inr (Or.inl rfl)))))
  rcases List.mem_cons.mp hc with rfl | hc
  · exact Or.inr (Or.inr (Or.inr (Or.inr (Or.inr (Or.inr (Or.inl rfl))))))
  rcases List.mem_append.mp hc with hc | hc
  · exact Or.inl (hds c hc)
  · rcases List.mem_cons.mp hc with rfl | hc
    · right; right; right; right; right; right; right; left; rfl
    rcases List.mem_cons.mp hc with rfl | hc
    · right; right; right; right; right; right; right; right; left; rfl
    rcases List.mem_cons.mp hc with rfl | hc
    · right; right; right; right; right; right; right; right; right; rfl
    · cases hc

theorem suffix_append_cases {t' l r : List Char} (h : t' <:+ l ++ r) :
    (∃ l', l' <:+ l ∧ l' ≠ [] ∧ t' = l' ++ r) ∨ t' <:+ r := by
  induction l with
  | nil => exact Or.inr (by simpa using h)
  | cons c cs ih =>
    rcases List.suffix_cons_iff.mp (by simpa using h) with he | hs
    · exact Or.inl ⟨c :: cs, List.suffix_refl _, by simp, by simpa using he⟩
    · rcases ih hs with ⟨l', h1, h2, h3⟩ | hr
      · exact Or.inl ⟨l', h1.trans (List.suffix_cons c cs), h2, h3⟩
      · exact Or.inr hr

theorem suffix_cents_cases {t' : List Char} {c1 c2 : Char}
    (h : t' <:+ ['.', c1, c2]) :
    t' = ['.', c1, c2] ∨ t' = [c1, c2] ∨ t' = [c2] ∨ t' = [] := by
  rcases List.suffix_cons_iff.mp h with rfl | h
  · exact Or.inl rfl
  rcases List.suffix_cons_iff.mp h with rfl | h
  · exact Or.inr (Or.inl rfl)
  rcases List.suffix_cons_iff.mp h with rfl | h
  · exact Or.inr (Or.inr (Or.inl rfl))
  · exact Or.inr (Or.inr (Or.inr (List.suffix_nil.mp h)))

theorem suffix_cents_dollar_cases {t' : List Char} {c1 c2 : Char}
    (h : t' <:+ ['.', c1, c2, '$']) :
    t' = ['.', c1, c2, '$'] ∨ t' = [c1, c2, '$'] ∨ t' = [c2, '$'] ∨
      t' = ['$'] ∨ t' = [] := by
  rcases List.suffix_cons_iff.mp h with rfl | h
  · exact Or.inl rfl
  rcases List.suffix_cons_iff.mp h with rfl | h
  · exact Or.inr (Or.inl rfl)
  rcases List.suffix_cons_iff.mp h with rfl | h
  · exact Or.inr (Or.inr (Or.inl rfl))
  rcases List.suffix_cons_iff.mp h with rfl | h
  · exact Or.inr (Or.inr (Or.inr (Or.inl rfl)))
  · exact Or.inr (Or.inr (Or.inr (Or.inr (List.suffix_nil.mp h))))

/-- Pattern 1 matches the whole `$`-before amount at position 0. -/
theorem v2p1At_dollarBefore (ds : List Char) (c1 c2 : Char)
    (hds : ∀ c ∈ ds, c.isDigit = true) (hne : ds ≠ [])
    (h1 : c1.isDigit = true) (h2 : c2.isDigit = true) :
    v2p1At ('$' :: ds ++ ['.', c1, c2]) = some (ds ++ ['.', c1, c2]) := by
  have hskip : skipWs (ds ++ ['.', c1, c2]) = ds ++ ['.', c1, c2] := by
    apply skipWs_noWs
    intro c hc
    cases ds with
    | nil => exact absurd rfl hne
    | cons d ds' =>
      simp only [List.cons_append, List.head?_cons] at hc
      injection hc with hc
      subst hc
      exact digit_not_ws (hds _ (List.mem_cons_self _ _))
  have htake : takeDigits (ds ++ ['.', c1, c2]) = (ds, ['.', c1, c2]) :=
    takeDigits_append ds _ hds fun c hc => by
      injection hc with hc
      subst hc
      decide
  simp [v2p1At, hskip, htake, hne, centsOf_digits c1 c2 h1 h2, isCurrencySym]

/-- Pattern 2 matches the whole `$`-after amount at position 0. -/
theorem v2p2At_dollarAfter (ds : List Char) (c1 c2 : Char)
    (hds : ∀ c ∈ ds, c.isDigit = true) (hne : ds ≠ [])
    (h1 : c1.isDigit = true) (h2 : c2.isDigit = true) :
    v2p2At (ds ++ ['.', c1, c2, '$']) = some (ds ++ ['.', c1, c2]) := by
  have htake : takeDigits (ds ++ ['.', c1, c2, '$']) = (ds, ['.', c1, c2, '$']) :=
    takeDigits_append ds _ hds fun c hc => by
      injection hc with hc
      subst hc
      decide
  have hcs : centsSplit ['.', c1, c2, '$'] = some (['.', c1, c2], ['$']) := by
    simp [centsSplit, h1, h2]
  have hsym : symAfterWs ['$'] = true := by decide
  simp [v2p2At, htake, hne, hcs, hsym]

theorem v2p2At_none_of_no_digit_head (l : List Char)
    (h : ∀ c, l.head? = some c → c.isDigit = false) : v2p2At l = none := by
  unfold v2p2At
  rw [takeDigits_none l h]
  simp

theorem v2p1At_dollar_only : v2p1At ['$'] = none := by decide

theorem v2p6At_dollar_only : v2p6At ['$'] = none := by decide

/-! ### Decomposing pattern 6's greedy parse -/

theorem centsOf_nondot (l : List Char)
    (h : ∀ c, l.head? = some c → c ≠ '.') : centsOf l = [] := by
  cases l with
  | nil => rfl
  | cons c t =>
    have hc := h c rfl
    unfold centsOf
    split
    · rename_i a b tail heq
      injection heq with h1 h2
      exact absurd h1 hc
    · rfl

theorem dropDollarHead_nondollar (l : List Char)
    (h : ∀ c, l.head? = some c → c ≠ '$') : dropDollarHead l = l := by
  cases l with
  | nil => rfl
  | cons c t =>
    have hc := h c rfl
    unfold dropDollarHead
    split
    · rename_i r heq
      injection heq with h1 h2
      exact absurd h1 hc
    · rfl

/-- The star of pattern 6 stops when no `(,)ddd` group starts here. -/
theorem starThrees_stop (l : List Char)
    (hnc : ∀ c, l.head? = some c → c ≠ ',')
    (hstop : ∀ a b c r, l = a :: b :: c :: r →
      (a.isDigit && b.isDigit && c.isDigit) = false) :
    starThrees l = ([], l) := by
  match l with
  | [] => rfl
  | [x] =>
    unfold starThrees
    split
    all_goals first
      | rfl
      | (rename_i heq
         simp at heq)
  | [x, y] =>
    unfold starThrees
    split
    all_goals first
      | rfl
      | (rename_i heq
         simp at heq)
  | a :: b :: c :: r =>
    have ha := hnc a rfl
    have hg := hstop a b c r rfl
    unfold starThrees
    split
    · rename_i heq
      injection heq with h1 h2
      exact absurd h1 ha
    · rename_i heq
      injection heq with h1 heq2
      injection heq2 with h2 heq3
      injection heq3 with h3 heq4
      subst h1
      subst h2
      subst h3
      subst heq4
      rw [if_neg (by rw [hg]; exact Bool.false_ne_true)]
    · rfl

/-- The star of pattern 6 consumes a three-digit group. -/
theorem starThrees_cons3_digits (a b c : Char) (r : List Char)
    (ha : a.isDigit = true) (hb : b.isDigit = true) (hc : c.isDigit = true) :
    starThrees (a :: b :: c :: r)
      = (a :: b :: c :: (starThrees r).1, (starThrees r).2) := by
  have hane : a ≠ ',' := digit_ne_of ha (by decide)
  rw [starThrees.eq_def]
  split
  · rename_i heq
    injection heq with h1 h2
    exact absurd h1 hane
  · rename_i heq
    injection heq with h1 heq2
    injection heq2 with h2 heq3
    injection heq3 with h3 heq4
    subst h1
    subst h2
    subst h3
    subst heq4
    rw [if_pos (by rw [ha, hb, hc]; rfl)]
  · rename_i h1 h2
    exact absurd rfl (h2 a b c r)

/-- Greedy decomposition of the pattern-6 star on a digit run followed by
a decimal point: it consumes a prefix of the digits (in three-digit
groups) and stops either exactly at the point or at a leftover digit. -/
theorem starThrees_split_dot : ∀ (suf : List Char),
    (∀ c ∈ suf, c.isDigit = true) → ∀ (rs : List Char),
    ∃ g suf2, suf = g ++ suf2 ∧
      starThrees (suf ++ '.' :: rs) = (g, suf2 ++ '.' :: rs) ∧
      (∀ c ∈ g, c.isDigit = true) ∧
      (suf2 = [] ∨ ∃ d, suf2.head? = some d ∧ d.isDigit = true)
  | [], _, rs => by
    refine ⟨[], [], rfl, ?_, by simp, Or.inl rfl⟩
    apply starThrees_stop
    · intro c hcc
      injection hcc with hcc
      subst hcc
      decide
    · intro a b c r heq
      injection heq with h1 _
      subst h1
      simp [show ('.' : Char).isDigit = false from by decide]
  | [d], h, rs => by
    refine ⟨[], [d], rfl, ?_, by simp, Or.inr ⟨d, rfl, h d (by simp)⟩⟩
    apply starThrees_stop
    · intro c hcc
      injection hcc with hcc
      subst hcc
      exact digit_ne_of (h d (by simp)) (by decide)
    · intro a b c r heq
      injection heq with h1 heq
      injection heq with h2 _
      subst h2
      simp [show ('.' : Char).isDigit = false from by decide]
  | [d, e], h, rs => by
    refine ⟨[], [d, e], rfl, ?_, by simp, Or.inr ⟨d, rfl, h d (by simp)⟩⟩
    apply starThrees_stop
    · intro c hcc
      injection hcc with hcc
      subst hcc
      exact digit_ne_of (h d (by simp)) (by decide)
    · intro a b c r heq
      injection heq with h1 heq
      injection heq with h2 heq
      injection heq with h3 _
      subst h3
      simp [show ('.' : Char).isDigit = false from by decide]
  | d :: e :: f :: suf', h, rs => by
    obtain ⟨g, suf2, h1, h2, h3, h4⟩ :=
      starThrees_split_dot suf' (fun c hcc => h c (by simp [hcc])) rs
    refine ⟨d :: e :: f :: g, suf2, by simp [h1], ?_, ?_, h4⟩
    · have := starThrees_cons3_digits d e f (suf' ++ '.' :: rs)
        (h d (by simp)) (h e (by simp)) (h f (by simp))
      simp only [List.cons_append, this, h2]
    · intro c hcc
      rcases List.mem_cons.mp hcc with rfl | hcc
      · exact h c (by simp)
      rcases List.mem_cons.mp hcc with rfl | hcc
      · exact h c (by simp)
      rcases List.mem_cons.mp hcc with rfl | hcc
      · exact h c (by simp)
      · exact h3 c hcc

/-- Greedy split of `\d{1,3}` on a digit run followed by a decimal
point. -/
theorem takeUpTo3_split_dot (ds : List Char) (rs : List Char)
    (hds : ∀ c ∈ ds, c.isDigit = true) (hne : ds ≠ []) :
    ∃ pre suf, ds = pre ++ suf ∧ pre ≠ [] ∧
      takeUpTo3Digits (ds ++ '.' :: rs) = (pre, suf ++ '.' :: rs) ∧
      (∀ c ∈ pre, c.isDigit = true) ∧ (∀ c ∈ suf, c.isDigit = true) := by
  have hdot : ('.' : Char).isDigit = false := by decide
  match ds, hne with
  | [d], _ =>
    have hd := hds d (by simp)
    refine ⟨[d], [], by simp, by simp, ?_, by simpa using hd, by simp⟩
    cases rs with
    | nil => simp [takeUpTo3Digits, hd, hdot]
    | cons r1 rs' => simp [takeUpTo3Digits, hd, hdot]
  | [d, e], _ =>
    have hd := hds d (by simp)
    have he := hds e (by simp)
    refine ⟨[d, e], [], by simp, by simp, ?_, ?_, by simp⟩
    · simp [takeUpTo3Digits, hd, he, hdot]
    · intro c hcc
      rcases List.mem_cons.mp hcc with rfl | hcc
      · exact hd
      · obtain rfl := List.mem_singleton.mp hcc
        exact he
  | d :: e :: f :: ds', _ =>
    have hd := hds d (by simp)
    have he := hds e (by simp)
    have hf := hds f (by simp)
    refine ⟨[d, e, f], ds', by simp, by simp, ?_, ?_, ?_⟩
    · simp [takeUpTo3Digits, hd, he, hf]
    · intro c hcc
      simp only [List.mem_cons] at hcc
      rcases hcc with rfl | rfl | rfl | h0
      · exact hd
      · exact he
      · exact hf
      · cases h0
    · intro c hcc
      exact hds c (by simp [hcc])

/-! ### Per-form behaviour of the six `v2` patterns -/

theorem digit_ne_comma {c : Char} (h : c.isDigit = true) : c ≠ ',' :=
  digit_ne_of h (by decide)

theorem digit_ne_space {c : Char} (h : c.isDigit = true) : c ≠ ' ' :=
  digit_ne_of h (by decide)

/-- Collapsed classification for the `$`-before form. -/
theorem before_class3 (ds : List Char) (c1 c2 : Char)
    (hds : ∀ c ∈ ds, c.isDigit = true) (h1 : c1.isDigit = true)
    (h2 : c2.isDigit = true) :
    ∀ c ∈ '$' :: ds ++ ['.', c1, c2], c.isDigit = true ∨ c = '$' ∨ c = '.' := by
  intro c hc
  rcases stdBefore_class ds c1 c2 hds c hc with h | rfl | rfl | rfl | rfl
  · exact Or.inl h
  · exact Or.inr (Or.inl rfl)
  · exact Or.inr (Or.inr rfl)
  · exact Or.inl h1
  · exact Or.inl h2

/-- Collapsed classification for the `$`-after form. -/
theorem after_class3 (ds : List Char) (c1 c2 : Char)
    (hds : ∀ c ∈ ds, c.isDigit = true) (h1 : c1.isDigit = true)
    (h2 : c2.isDigit = true) :
    ∀ c ∈ ds ++ ['.', c1, c2, '$'], c.isDigit = true ∨ c = '$' ∨ c = '.' := by
  intro c hc
  rcases stdAfter_class ds c1 c2 hds c hc with h | rfl | rfl | rfl | rfl
  · exact Or.inl h
  · exact Or.inr (Or.inl rfl)
  · exact Or.inr (Or.inr rfl)
  · exact Or.inl h1
  · exact Or.inl h2

/-- Collapsed classification for the labelled form. -/
theorem labelled_class8 (ds : List Char) (c1 c2 : Char)
    (hds : ∀ c ∈ ds, c.isDigit = true) (h1 : c1.isDigit = true)
    (h2 : c2.isDigit = true) :
    ∀ c ∈ 'P' :: 'r' :: 'i' :: 'c' :: 'e' :: ':' :: ds ++ ['.', c1, c2],
      c.isDigit = true ∨ c ∈ (['P', 'r', 'i', 'c', 'e', ':', '.'] : List Char) := by
  intro c hc
  rcases labelled_class ds c1 c2 hds c hc with
    h | rfl | rfl | rfl | rfl | rfl | rfl | rfl | rfl | rfl
  · exact Or.inl h
  · exact Or.inr (by decide)
  · exact Or.inr (by decide)
  · exact Or.inr (by decide)
  · exact Or.inr (by decide)
  · exact Or.inr (by decide)
  · exact Or.inr (by decide)
  · exact Or.inr (by decide)
  · exact Or.inl h1
  · exact Or.inl h2

theorem class3_ne {c : Char} (hcl : c.isDigit = true ∨ c = '$' ∨ c = '.')
    {d : Char} (hd : d.isDigit = false) (hd2 : d ≠ '$') (hd3 : d ≠ '.') :
    c ≠ d := by
  rcases hcl with h | rfl | rfl
  · exact digit_ne_of h hd
  · exact fun he => hd2 he.symm
  · exact fun he => hd3 he.symm

theorem class8_ne {c : Char}
    (hcl : c.isDigit = true ∨ c ∈ (['P', 'r', 'i', 'c', 'e', ':', '.'] : List Char))
    {d : Char} (hd : d.isDigit = false)
    (hd2 : d ∉ (['P', 'r', 'i', 'c', 'e', ':', '.'] : List Char)) : c ≠ d := by
  rcases hcl with h | h
  · exact digit_ne_of h hd
  · exact fun he => hd2 (he ▸ h)

theorem class3_not_sym {c : Char} (hcl : c.isDigit = true ∨ c = '$' ∨ c = '.')
    (hnd : c ≠ '$') : isCurrencySym c = false := by
  rcases hcl with h | rfl | rfl
  · exact digit_not_sym h
  · exact absurd rfl hnd
  · decide

theorem class8_not_sym {c : Char}
    (hcl : c.isDigit = true ∨ c ∈ (['P', 'r', 'i', 'c', 'e', ':', '.'] : List Char)) :
    isCurrencySym c = false := by
  rcases hcl with h | h
  · exact digit_not_sym h
  · simp only [List.mem_cons, List.not_mem_nil, or_false] at h
    rcases h with rfl | rfl | rfl | rfl | rfl | rfl | rfl <;> decide

/-- Pattern 1 cannot match when no position has a currency symbol head. -/
theorem v2p1At_none_head (l : List Char)
    (h : ∀ c, l.head? = some c → isCurrencySym c = false) : v2p1At l = none := by
  cases l with
  | nil => rfl
  | cons c t => simp [v2p1At, h c rfl]

/-- Pattern 2 at a position whose text is only digits fails. -/
theorem v2p2At_none_digits_only (l : List Char)
    (hl : ∀ c ∈ l, c.isDigit = true) : v2p2At l = none := by
  unfold v2p2At
  have h := takeDigits_append l [] hl (by simp)
  rw [List.append_nil] at h
  rw [h]
  by_cases hnil : l = []
  · simp [hnil]
  · simp [hnil, centsSplit, symAfterWs, skipWs]

/-- Pattern 2 at a position holding a digit run, a decimal point and two
digits (with nothing after) fails: no currency symbol follows. -/
theorem v2p2At_none_digits_dot (ds' : List Char) (c1 c2 : Char)
    (hd : ∀ c ∈ ds', c.isDigit = true) (h1 : c1.isDigit = true)
    (h2 : c2.isDigit = true) :
    v2p2At (ds' ++ ['.', c1, c2]) = none := by
  cases ds' with
  | nil =>
    apply v2p2At_none_of_no_digit_head
    intro c hc
    injection hc with hc
    subst hc
    decide
  | cons d ds0 =>
    unfold v2p2At
    rw [takeDigits_append (d :: ds0) _ hd fun c hc => by
      injection hc with hc
      subst hc
      decide]
    have hcs : centsSplit ['.', c1, c2] = some (['.', c1, c2], []) := by
      simp [centsSplit, h1, h2]
    have hs1 : symAfterWs ([] : List Char) = false := rfl
    have hs2 : symAfterWs ['.', c1, c2] = false := by
      apply symAfterWs_false
      intro c hc
      simp only [List.mem_cons, List.mem_singleton] at hc
      rcases hc with rfl | rfl | rfl | h0
      · decide
      · exact digit_not_sym h1
      · exact digit_not_sym h2
      · cases h0
    simp [hcs, hs1, hs2]

/-- Pattern 2 never matches anywhere in the `$`-before form. -/
theorem searchGen_v2p2_none_before (ds : List Char) (c1 c2 : Char)
    (hds : ∀ c ∈ ds, c.isDigit = true) (h1 : c1.isDigit = true)
    (h2 : c2.isDigit = true) :
    searchGen v2p2At ('$' :: ds ++ ['.', c1, c2]) = none := by
  apply searchGen_eq_none
  intro t' ht'
  rcases List.suffix_cons_iff.mp ht' with rfl | hs
  · apply v2p2At_none_of_no_digit_head
    intro c hc
    injection hc with hc
    subst hc
    decide
  · rcases suffix_append_cases hs with ⟨ds', hds', _hne', rfl⟩ | hc
    · exact v2p2At_none_digits_dot ds' c1 c2
        (fun c hc => hds c (hds'.subset hc)) h1 h2
    · rcases suffix_cents_cases hc with rfl | rfl | rfl | rfl
      · exact v2p2At_none_digits_dot [] c1 c2 (by simp) h1 h2
      · exact v2p2At_none_digits_only _ (by
          intro c hc
          simp only [List.mem_cons, List.mem_singleton] at hc
          rcases hc with rfl | rfl | h0
          · exact h1
          · exact h2
          · cases h0)
      · exact v2p2At_none_digits_only _ (by
          intro c hc
          simp only [List.mem_singleton] at hc
          subst hc
          exact h2)
      · rfl

/-- Pattern 1 never matches anywhere in the `$`-after form. -/
theorem searchGen_v2p1_none_after (ds : List Char) (c1 c2 : Char)
    (hds : ∀ c ∈ ds, c.isDigit = true) (h1 : c1.isDigit = true)
    (h2 : c2.isDigit = true) :
    searchGen v2p1At (ds ++ ['.', c1, c2, '$']) = none := by
  apply searchGen_eq_none
  intro t' ht'
  rcases suffix_append_cases ht' with ⟨ds', hds', hne', rfl⟩ | hc
  · apply v2p1At_none_head
    intro c hc
    cases ds' with
    | nil => exact absurd rfl hne'
    | cons d ds0 =>
      simp only [List.cons_append, List.head?_cons] at hc
      injection hc with hc
      subst hc
      exact digit_not_sym (hds _ (hds'.subset (List.mem_cons_self _ _)))
  · rcases suffix_cents_dollar_cases hc with rfl | rfl | rfl | rfl | rfl
    · apply v2p1At_none_head
      intro c hc
      injection hc with hc
      subst hc
      decide
    · apply v2p1At_none_head
      intro c hc
      injection hc with hc
      subst hc
      exact digit_not_sym h1
    · apply v2p1At_none_head
      intro c hc
      injection hc with hc
      subst hc
      exact digit_not_sym h2
    · exact v2p1At_dollar_only
    · rfl

/-- Pattern 6 never matches anywhere in the `$`-after form: the only `$`
is terminal. -/
theorem searchGen_v2p6_none_after (ds : List Char) (c1 c2 : Char)
    (hds : ∀ c ∈ ds, c.isDigit = true) (h1 : c1.isDigit = true)
    (h2 : c2.isDigit = true) :
    searchGen v2p6At (ds ++ ['.', c1, c2, '$']) = none := by
  apply searchGen_eq_none
  intro t' ht'
  rcases suffix_append_cases ht' with ⟨ds', hds', hne', rfl⟩ | hc
  · apply v2p6At_none_noDollar
    intro c hc
    cases ds' with
    | nil => exact absurd rfl hne'
    | cons d ds0 =>
      simp only [List.cons_append, List.head?_cons] at hc
      injection hc with hc
      subst hc
      exact digit_ne_of (hds _ (hds'.subset (List.mem_cons_self _ _))) (by decide)
  · rcases suffix_cents_dollar_cases hc with rfl | rfl | rfl | rfl | rfl
    · apply v2p6At_none_noDollar
      intro c hc
      injection hc with hc
      subst hc
      decide
    · apply v2p6At_none_noDollar
      intro c hc
      injection hc with hc
      subst hc
      exact digit_ne_of h1 (by decide)
    · apply v2p6At_none_noDollar
      intro c hc
      injection hc with hc
      subst hc
      exact digit_ne_of h2 (by decide)
    · exact v2p6At_dollar_only
    · rfl

theorem suffix_labelled_cases {t' ds : List Char} {c1 c2 : Char}
    (h : t' <:+ 'P' :: 'r' :: 'i' :: 'c' :: 'e' :: ':' :: (ds ++ ['.', c1, c2])) :
    t' = 'P' :: 'r' :: 'i' :: 'c' :: 'e' :: ':' :: (ds ++ ['.', c1, c2]) ∨
    t' = 'r' :: 'i' :: 'c' :: 'e' :: ':' :: (ds ++ ['.', c1, c2]) ∨
    t' = 'i' :: 'c' :: 'e' :: ':' :: (ds ++ ['.', c1, c2]) ∨
    t' = 'c' :: 'e' :: ':' :: (ds ++ ['.', c1, c2]) ∨
    t' = 'e' :: ':' :: (ds ++ ['.', c1, c2]) ∨
    t' = ':' :: (ds ++ ['.', c1, c2]) ∨
    (∃ ds', ds' <:+ ds ∧ ds' ≠ [] ∧ t' = ds' ++ ['.', c1, c2]) ∨
    t' <:+ ['.', c1, c2] := by
  rcases List.suffix_cons_iff.mp h with rfl | h
  · exact Or.inl rfl
  rcases List.suffix_cons_iff.mp h with rfl | h
  · exact Or.inr (Or.inl rfl)
  rcases List.suffix_cons_iff.mp h with rfl | h
  · exact Or.inr (Or.inr (Or.inl rfl))
  rcases List.suffix_cons_iff.mp h with rfl | h
  · exact Or.inr (Or.inr (Or.inr (Or.inl rfl)))
  rcases List.suffix_cons_iff.mp h with rfl | h
  · exact Or.inr (Or.inr (Or.inr (Or.inr (Or.inl rfl))))
  rcases List.suffix_cons_iff.mp h with rfl | h
  · exact Or.inr (Or.inr (Or.inr (Or.inr (Or.inr (Or.inl rfl)))))
  rcases suffix_append_cases h with hd | hc
  · exact Or.inr (Or.inr (Or.inr (Or.inr (Or.inr (Or.inr (Or.inl hd))))))
  · exact Or.inr (Or.inr (Or.inr (Or.inr (Or.inr (Or.inr (Or.inr hc))))))

/-- Pattern 2 never matches anywhere in the labelled form. -/
theorem searchGen_v2p2_none_labelled (ds : List Char) (c1 c2 : Char)
    (hds : ∀ c ∈ ds, c.isDigit = true) (h1 : c1.isDigit = true)
    (h2 : c2.isDigit = true) :
    searchGen v2p2At
      ('P' :: 'r' :: 'i' :: 'c' :: 'e' :: ':' :: (ds ++ ['.', c1, c2])) = none := by
  apply searchGen_eq_none
  intro t' ht'
  rcases suffix_labelled_cases ht' with
    rfl | rfl | rfl | rfl | rfl | rfl | ⟨ds', hds', _hne', rfl⟩ | hc
  · apply v2p2At_none_of_no_digit_head
    intro c hc; injection hc with hc; subst hc; decide
  · apply v2p2At_none_of_no_digit_head
    intro c hc; injection hc with hc; subst hc; decide
  · apply v2p2At_none_of_no_digit_head
    intro c hc; injection hc with hc; subst hc; decide
  · apply v2p2At_none_of_no_digit_head
    intro c hc; injection hc with hc; subst hc; decide
  · apply v2p2At_none_of_no_digit_head
    intro c hc; injection hc with hc; subst hc; decide
  · apply v2p2At_none_of_no_digit_head
    intro c hc; injection hc with hc; subst hc; decide
  · exact v2p2At_none_digits_dot ds' c1 c2
      (fun c hc => hds c (hds'.subset hc)) h1 h2
  · rcases suffix_cents_cases hc with rfl | rfl | rfl | rfl
    · exact v2p2At_none_digits_dot [] c1 c2 (by simp) h1 h2
    · exact v2p2At_none_digits_only _ (by
        intro c hc
        simp only [List.mem_cons, List.mem_singleton] at hc
        rcases hc with rfl | rfl | h0
        · exact h1
        · exact h2
        · cases h0)
    · exact v2p2At_none_digits_only _ (by
        intro c hc
        simp only [List.mem_singleton] at hc
        subst hc
        exact h2)
    · rfl

/-- `[:\s]+` stops at a non-separator head. -/
theorem takeSeps_none (l : List Char)
    (h : ∀ c, l.head? = some c → (c = ':' || isWsChar c) = false) :
    takeSeps l = ([], l) := by
  cases l with
  | nil => rfl
  | cons c t => simp [takeSeps, h c rfl]

/-- Pattern 5 matches the labelled amount at position 0. -/
theorem v2p5At_labelled (ds : List Char) (c1 c2 : Char)
    (hds : ∀ c ∈ ds, c.isDigit = true) (hne : ds ≠ [])
    (h1 : c1.isDigit = true) (h2 : c2.isDigit = true) :
    v2p5At ('P' :: 'r' :: 'i' :: 'c' :: 'e' :: ':' :: (ds ++ ['.', c1, c2]))
      = some (ds ++ ['.', c1, c2]) := by
  have hheadd : ∀ c, (ds ++ ['.', c1, c2]).head? = some c → c.isDigit = true := by
    intro c hc
    cases ds with
    | nil => exact absurd rfl hne
    | cons d ds0 =>
      simp only [List.cons_append, List.head?_cons] at hc
      injection hc with hc
      subst hc
      exact hds _ (List.mem_cons_self _ _)
  have hseps : takeSeps (':' :: (ds ++ ['.', c1, c2]))
      = ([':'], ds ++ ['.', c1, c2]) := by
    have hstop : takeSeps (ds ++ ['.', c1, c2]) = ([], ds ++ ['.', c1, c2]) := by
      apply takeSeps_none
      intro c hc
      have hd := hheadd c hc
      have hcol : c ≠ ':' := digit_ne_of hd (show (':' : Char).isDigit = false from by decide)
      simp [digit_not_ws hd, hcol]
    simp [takeSeps, hstop]
  have hdrop : dropDollarHead (ds ++ ['.', c1, c2]) = ds ++ ['.', c1, c2] := by
    apply dropDollarHead_nondollar
    intro c hc
    exact digit_ne_of (hheadd c hc) (by decide)
  have htake : takeDigits (ds ++ ['.', c1, c2]) = (ds, ['.', c1, c2]) :=
    takeDigits_append ds _ hds fun c hc => by
      injection hc with hc
      subst hc
      decide
  have hpl : priceLit ('P' :: 'r' :: 'i' :: 'c' :: 'e' :: ':' :: (ds ++ ['.', c1, c2]))
      = some (':' :: (ds ++ ['.', c1, c2])) := rfl
  simp [v2p5At, hpl, hseps, hdrop, htake, hne, centsOf_digits c1 c2 h1 h2]

/-! ### Pattern 6 on the `$`-before form: possible truncation -/

/-- Pattern 6 always matches the `$`-before form, and the group it
captures is a three-digit-aligned prefix of the amount, so its 100-scaled
value never exceeds that of the full amount. -/
theorem v2p6At_dollarBefore (ds : List Char) (c1 c2 : Char)
    (hds : ∀ c ∈ ds, c.isDigit = true) (hne : ds ≠ [])
    (h1 : c1.isDigit = true) (h2 : c2.isDigit = true) :
    ∃ g, v2p6At ('$' :: ds ++ ['.', c1, c2]) = some g ∧
      centsValOfGroup (dropCommas g) ≤ 100 * digitsVal ds + digitsVal [c1, c2] := by
  obtain ⟨pre, suf, hsplit, hprene, htake, hpred, hsufd⟩ :=
    takeUpTo3_split_dot ds [c1, c2] hds hne
  obtain ⟨g2, suf2, hsp2, hstar, hg2d, hsuf2⟩ :=
    starThrees_split_dot suf hsufd [c1, c2]
  have hv : v2p6At ('$' :: ds ++ ['.', c1, c2])
      = some (pre ++ g2 ++ centsOf (suf2 ++ '.' :: [c1, c2])) := by
    unfold v2p6At
    split
    · rename_i t2 heq
      injection heq with _ heq2
      subst heq2
      simp only [List.append_eq]
      simp only [htake, hstar]
      rw [if_neg hprene]
    · rename_i hno
      exact absurd rfl (hno (ds ++ ['.', c1, c2]))
  refine ⟨_, hv, ?_⟩
  have hpg2 : ∀ c ∈ pre ++ g2, c.isDigit = true := by
    intro c hc
    rcases List.mem_append.mp hc with hc | hc
    · exact hpred c hc
    · exact hg2d c hc
  rcases hsuf2 with rfl | ⟨d, hd1, hd2⟩
  · rw [List.append_nil] at hsp2
    rw [List.nil_append, centsOf_digits c1 c2 h1 h2 []]
    have hnc : ∀ c ∈ (pre ++ g2) ++ ['.', c1, c2], c ≠ ',' := by
      intro c hc
      rcases List.mem_append.mp hc with hc | hc
      · exact digit_ne_comma (hpg2 c hc)
      · simp only [List.mem_cons, List.not_mem_nil, or_false] at hc
        rcases hc with rfl | rfl | rfl
        · decide
        · exact digit_ne_comma h1
        · exact digit_ne_comma h2
    rw [dropCommas_eq_self _ hnc, centsValOfGroup_std (pre ++ g2) c1 c2 [] hpg2,
      hsplit, hsp2]
  · have hcents : centsOf (suf2 ++ '.' :: [c1, c2]) = [] := by
      apply centsOf_nondot
      intro c hc
      cases suf2 with
      | nil => cases hd1
      | cons e t =>
        simp only [List.head?_cons] at hd1
        simp only [List.cons_append, List.head?_cons] at hc
        injection hd1 with hd1
        injection hc with hc
        subst hc
        subst hd1
        exact digit_ne_of hd2 (by decide)
    rw [hcents, List.append_nil,
      dropCommas_eq_self _ fun c hc => digit_ne_comma (hpg2 c hc),
      centsValOfGroup_digits _ hpg2]
    have hle : digitsVal (pre ++ g2) ≤ digitsVal ds := by
      rw [hsplit, hsp2, ← List.append_assoc]
      exact digitsVal_le_of_append _ _
    omega

/-! ### The range check and input cleaning -/

theorem v2Check_none : v2Check none = none := rfl

theorem v2Check_reject (g : List Char)
    (h : ¬(1 < centsValOfGroup (dropCommas g) ∧
      centsValOfGroup (dropCommas g) < 1000000000)) :
    v2Check (some g) = none := by
  simp only [v2Check]
  rw [if_neg h]

theorem v2Check_accept (g : List Char)
    (h : 1 < centsValOfGroup (dropCommas g) ∧
      centsValOfGroup (dropCommas g) < 1000000000) :
    v2Check (some g) = some (centsValOfGroup (dropCommas g)) := by
  simp only [v2Check]
  rw [if_pos h]

theorem dropCommasSpaces_cons_keep (c : Char) (l : List Char)
    (h1 : c ≠ ',') (h2 : c ≠ ' ') :
    dropCommasSpaces (c :: l) = c :: dropCommasSpaces l := by
  simp [dropCommasSpaces, List.filter_cons, h1, h2]

theorem dropCommasSpaces_cons_space (l : List Char) :
    dropCommasSpaces (' ' :: l) = dropCommasSpaces l := by
  simp [dropCommasSpaces, List.filter_cons]

theorem dropCommasSpaces_append (a b : List Char) :
    dropCommasSpaces (a ++ b) = dropCommasSpaces a ++ dropCommasSpaces b := by
  simp [dropCommasSpaces, List.filter_append]

theorem dropCommasSpaces_digits (l : List Char)
    (h : ∀ c ∈ l, c.isDigit = true) : dropCommasSpaces l = l :=
  dropCommasSpaces_eq_self l fun c hc =>
    ⟨digit_ne_comma (h c hc), digit_ne_space (h c hc)⟩

theorem std_cents_clean (ds : List Char) (c1 c2 : Char)
    (hds : ∀ c ∈ ds, c.isDigit = true) (h1 : c1.isDigit = true)
    (h2 : c2.isDigit = true) :
    ∀ c ∈ ds ++ ['.', c1, c2], c ≠ ',' ∧ c ≠ ' ' := by
  intro c hc
  rcases List.mem_append.mp hc with hc | hc
  · exact ⟨digit_ne_comma (hds c hc), digit_ne_space (hds c hc)⟩
  · simp only [List.mem_cons, List.not_mem_nil, or_false] at hc
    rcases hc with rfl | rfl | rfl
    · exact ⟨by decide, by decide⟩
    · exact ⟨digit_ne_comma h1, digit_ne_space h1⟩
    · exact ⟨digit_ne_comma h2, digit_ne_space h2⟩

theorem clean_before (ds : List Char) (c1 c2 : Char)
    (hds : ∀ c ∈ ds, c.isDigit = true) (h1 : c1.isDigit = true)
    (h2 : c2.isDigit = true) :
    dropCommasSpaces ('$' :: ds ++ ['.', c1, c2]) = '$' :: ds ++ ['.', c1, c2] :=
  dropCommasSpaces_eq_self _ fun c hc => by
    have hcl := before_class3 ds c1 c2 hds h1 h2 c hc
    exact ⟨class3_ne hcl (by decide) (by decide) (by decide),
      class3_ne hcl (by decide) (by decide) (by decide)⟩

theorem clean_after (ds : List Char) (c1 c2 : Char)
    (hds : ∀ c ∈ ds, c.isDigit = true) (h1 : c1.isDigit = true)
    (h2 : c2.isDigit = true) :
    dropCommasSpaces (ds ++ ['.', c1, c2, '$']) = ds ++ ['.', c1, c2, '$'] :=
  dropCommasSpaces_eq_self _ fun c hc => by
    have hcl := after_class3 ds c1 c2 hds h1 h2 c hc
    exact ⟨class3_ne hcl (by decide) (by decide) (by decide),
      class3_ne hcl (by decide) (by decide) (by decide)⟩

theorem clean_labelled (ds : List Char) (c1 c2 : Char)
    (hds : ∀ c ∈ ds, c.isDigit = true) (h1 : c1.isDigit = true)
    (h2 : c2.isDigit = true) :
    dropCommasSpaces
        ('P' :: 'r' :: 'i' :: 'c' :: 'e' :: ':' :: ' ' :: (ds ++ ['.', c1, c2]))
      = 'P' :: 'r' :: 'i' :: 'c' :: 'e' :: ':' :: (ds ++ ['.', c1, c2]) := by
  rw [dropCommasSpaces_cons_keep _ _ (by decide) (by decide),
    dropCommasSpaces_cons_keep _ _ (by decide) (by decide),
    dropCommasSpaces_cons_keep _ _ (by decide) (by decide),
    dropCommasSpaces_cons_keep _ _ (by decide) (by decide),
    dropCommasSpaces_cons_keep _ _ (by decide) (by decide),
    dropCommasSpaces_cons_keep _ _ (by decide) (by decide),
    dropCommasSpaces_cons_space,
    dropCommasSpaces_eq_self _ (std_cents_clean ds c1 c2 hds h1 h2)]

theorem clean_groups (gs : List (List Char))
    (h : ∀ g ∈ gs, ∀ c ∈ g, c.isDigit = true) :
    dropCommasSpaces ((gs.map (fun g => ',' :: g)).join) = gs.join := by
  induction gs with
  | nil => rfl
  | cons g gs' ih =>
    simp only [List.map_cons, List.join_cons]
    rw [dropCommasSpaces_append]
    have hcomma : dropCommasSpaces (',' :: g) = dropCommasSpaces g := by
      simp [dropCommasSpaces, List.filter_cons]
    rw [hcomma, dropCommasSpaces_digits g (h g (List.mem_cons_self _ _)),
      ih fun g' hg' => h g' (List.mem_cons_of_mem _ hg')]

theorem clean_grouped (g0 : List Char) (gs : List (List Char)) (c1 c2 : Char)
    (hg0 : ∀ c ∈ g0, c.isDigit = true)
    (hgs : ∀ g ∈ gs, ∀ c ∈ g, c.isDigit = true)
    (h1 : c1.isDigit = true) (h2 : c2.isDigit = true) :
    dropCommasSpaces (groupedChars g0 gs c1 c2)
      = '$' :: (g0 ++ gs.join) ++ ['.', c1, c2] := by
  unfold groupedChars
  rw [dropCommasSpaces_append,
    dropCommasSpaces_cons_keep _ _ (by decide) (by decide),
    dropCommasSpaces_append,
    dropCommasSpaces_digits g0 hg0, clean_groups gs hgs,
    dropCommasSpaces_eq_self ['.', c1, c2]
      (std_cents_clean [] c1 c2 (by simp) h1 h2)]

/-! ## C3: abstention on out-of-range amounts -/

/-- C3 (amended, `v2`): on a well-formed price whose amount is out of
range, `v2`'s `extract_price_from_text` abstains for a price `p ≤ 0.01`
in any of the three comma-free syntaxes, and for `p ≥ 10,000,000` in the
suffixed and labelled syntaxes; the currency-prefixed high side is
excluded because pattern 6 can match an in-range prefix of the digit run
(see the counterexample). -/
theorem extract_v2_out_of_range (f : PriceSyntax) (ds : List Char) (c1 c2 : Char)
    (hds : ∀ c ∈ ds, c.isDigit = true) (hne : ds ≠ [])
    (h1 : c1.isDigit = true) (h2 : c2.isDigit = true)
    (hout : (digitsVal ds : ℚ) + (digitsVal [c1, c2] : ℚ) / 100 ≤ 1 / 100 ∨
      (10000000 ≤ (digitsVal ds : ℚ) + (digitsVal [c1, c2] : ℚ) / 100 ∧
        f ≠ PriceSyntax.dollarBefore)) :
    extractPriceFromText_v2 (String.mk (renderPrice f ds c1 c2)) = none := by
  have hcast : ((100 * digitsVal ds + digitsVal [c1, c2] : ℕ) : ℚ)
      = 100 * ((digitsVal ds : ℚ) + (digitsVal [c1, c2] : ℚ) / 100) := by
    push_cast
    ring
  have hN : 100 * digitsVal ds + digitsVal [c1, c2] ≤ 1 ∨
      (1000000000 ≤ 100 * digitsVal ds + digitsVal [c1, c2] ∧
        f ≠ PriceSyntax.dollarBefore) := by
    rcases hout with h | ⟨h, hf⟩
    · left
      have h' : ((100 * digitsVal ds + digitsVal [c1, c2] : ℕ) : ℚ) ≤ 1 := by
        rw [hcast]
        linarith
      exact_mod_cast h'
    · right
      refine ⟨?_, hf⟩
      have h' : (1000000000 : ℚ)
          ≤ ((100 * digitsVal ds + digitsVal [c1, c2] : ℕ) : ℚ) := by
        rw [hcast]
        linarith
      exact_mod_cast h'
  have hvalstd : centsValOfGroup (dropCommas (ds ++ ['.', c1, c2]))
      = 100 * digitsVal ds + digitsVal [c1, c2] := by
    rw [dropCommas_eq_self _ fun c hc => (std_cents_clean ds c1 c2 hds h1 h2 c hc).1]
    exact centsValOfGroup_std ds c1 c2 [] hds
  suffices hE : extractCents_v2 (String.mk (renderPrice f ds c1 c2)) = none by
    simp [extractPriceFromText_v2, hE]
  cases f with
  | dollarBefore =>
    have hNle : 100 * digitsVal ds + digitsVal [c1, c2] ≤ 1 := by
      rcases hN with h | ⟨h, hf⟩
      · exact h
      · exact absurd rfl hf
    have hclean : dropCommasSpaces
        (String.mk (renderPrice PriceSyntax.dollarBefore ds c1 c2)).data
        = '$' :: ds ++ ['.', c1, c2] := clean_before ds c1 c2 hds h1 h2
    obtain ⟨g6, hg6, hg6v⟩ := v2p6At_dollarBefore ds c1 c2 hds hne h1 h2
    have hcl3 := before_class3 ds c1 c2 hds h1 h2
    have e1 : searchGen v2p1At ('$' :: ds ++ ['.', c1, c2])
        = some (ds ++ ['.', c1, c2]) :=
      searchGen_of_head _ _ _ (v2p1At_dollarBefore ds c1 c2 hds hne h1 h2)
    have e1' : v2Check (some (ds ++ ['.', c1, c2])) = none :=
      v2Check_reject _ (by rw [hvalstd]; omega)
    have e2 : searchGen v2p2At ('$' :: ds ++ ['.', c1, c2]) = none :=
      searchGen_v2p2_none_before ds c1 c2 hds h1 h2
    have e3 : searchGen v2p3At ('$' :: ds ++ ['.', c1, c2]) = none :=
      searchGen_v2p3_none _ fun c hc =>
        ⟨class3_ne (hcl3 c hc) (by decide) (by decide) (by decide),
         class3_ne (hcl3 c hc) (by decide) (by decide) (by decide)⟩
    have e4 : searchGen v2p4At ('$' :: ds ++ ['.', c1, c2]) = none :=
      searchGen_v2p4_none _ fun c hc =>
        ⟨class3_ne (hcl3 c hc) (by decide) (by decide) (by decide),
         class3_ne (hcl3 c hc) (by decide) (by decide) (by decide)⟩
    have e5 : searchGen v2p5At ('$' :: ds ++ ['.', c1, c2]) = none :=
      searchGen_v2p5_none _ fun c hc =>
        ⟨class3_ne (hcl3 c hc) (by decide) (by decide) (by decide),
         class3_ne (hcl3 c hc) (by decide) (by decide) (by decide)⟩
    have e6 : searchGen v2p6At ('$' :: ds ++ ['.', c1, c2]) = some g6 :=
      searchGen_of_head _ _ _ hg6
    have e6' : v2Check (some g6) = none := v2Check_reject _ (by omega)
    simp only [extractCents_v2]
    rw [hclean, e1, e2, e3, e4, e5, e6]
    simp only [e1', e6', v2Check_none]
  | dollarAfter =>
    have hrej : ¬(1 < 100 * digitsVal ds + digitsVal [c1, c2] ∧
        100 * digitsVal ds + digitsVal [c1, c2] < 1000000000) := by
      rcases hN with h | ⟨h, hf⟩ <;> omega
    have hclean : dropCommasSpaces
        (String.mk (renderPrice PriceSyntax.dollarAfter ds c1 c2)).data
        = ds ++ ['.', c1, c2, '$'] := clean_after ds c1 c2 hds h1 h2
    have hcl3 := after_class3 ds c1 c2 hds h1 h2
    have e1 : searchGen v2p1At (ds ++ ['.', c1, c2, '$']) = none :=
      searchGen_v2p1_none_after ds c1 c2 hds h1 h2
    have e2 : searchGen v2p2At (ds ++ ['.', c1, c2, '$'])
        = some (ds ++ ['.', c1, c2]) :=
      searchGen_of_head _ _ _ (v2p2At_dollarAfter ds c1 c2 hds hne h1 h2)
    have e2' : v2Check (some (ds ++ ['.', c1, c2])) = none :=
      v2Check_reject _ (by rw [hvalstd]; exact hrej)
    have e3 : searchGen v2p3At (ds ++ ['.', c1, c2, '$']) = none :=
      searchGen_v2p3_none _ fun c hc =>
        ⟨class3_ne (hcl3 c hc) (by decide) (by decide) (by decide),
         class3_ne (hcl3 c hc) (by decide) (by decide) (by decide)⟩
    have e4 : searchGen v2p4At (ds ++ ['.', c1, c2, '$']) = none :=
      searchGen_v2p4_none _ fun c hc =>
        ⟨class3_ne (hcl3 c hc) (by decide) (by decide) (by decide),
         class3_ne (hcl3 c hc) (by decide) (by decide) (by decide)⟩
    have e5 : searchGen v2p5At (ds ++ ['.', c1, c2, '$']) = none :=
      searchGen_v2p5_none _ fun c hc =>
        ⟨class3_ne (hcl3 c hc) (by decide) (by decide) (by decide),
         class3_ne (hcl3 c hc) (by decide) (by decide) (by decide)⟩
    have e6 : searchGen v2p6At (ds ++ ['.', c1, c2, '$']) = none :=
      searchGen_v2p6_none_after ds c1 c2 hds h1 h2
    simp only [extractCents_v2]
    rw [hclean, e1, e2, e3, e4, e5, e6]
    simp only [e2', v2Check_none]
  | labelled =>
    have hrej : ¬(1 < 100 * digitsVal ds + digitsVal [c1, c2] ∧
        100 * digitsVal ds + digitsVal [c1, c2] < 1000000000) := by
      rcases hN with h | ⟨h, hf⟩ <;> omega
    have hclean : dropCommasSpaces
        (String.mk (renderPrice PriceSyntax.labelled ds c1 c2)).data
        = 'P' :: 'r' :: 'i' :: 'c' :: 'e' :: ':' :: (ds ++ ['.', c1, c2]) :=
      clean_labelled ds c1 c2 hds h1 h2
    have hcl8 := labelled_class8 ds c1 c2 hds h1 h2
    have e1 : searchGen v2p1At
        ('P' :: 'r' :: 'i' :: 'c' :: 'e' :: ':' :: (ds ++ ['.', c1, c2])) = none :=
      searchGen_v2p1_none_noSym _ fun c hc => class8_not_sym (hcl8 c hc)
    have e2 : searchGen v2p2At
        ('P' :: 'r' :: 'i' :: 'c' :: 'e' :: ':' :: (ds ++ ['.', c1, c2])) = none :=
      searchGen_v2p2_none_labelled ds c1 c2 hds h1 h2
    have e3 : searchGen v2p3At
        ('P' :: 'r' :: 'i' :: 'c' :: 'e' :: ':' :: (ds ++ ['.', c1, c2])) = none :=
      searchGen_v2p3_none _ fun c hc =>
        ⟨class8_ne (hcl8 c hc) (by decide) (by decide),
         class8_ne (hcl8 c hc) (by decide) (by decide)⟩
    have e4 : searchGen v2p4At
        ('P' :: 'r' :: 'i' :: 'c' :: 'e' :: ':' :: (ds ++ ['.', c1, c2])) = none :=
      searchGen_v2p4_none _ fun c hc =>
        ⟨class8_ne (hcl8 c hc) (by decide) (by decide),
         class8_ne (hcl8 c hc) (by decide) (by decide)⟩
    have e5 : searchGen v2p5At
        ('P' :: 'r' :: 'i' :: 'c' :: 'e' :: ':' :: (ds ++ ['.', c1, c2]))
        = some (ds ++ ['.', c1, c2]) :=
      searchGen_of_head _ _ _ (v2p5At_labelled ds c1 c2 hds hne h1 h2)
    have e5' : v2Check (some (ds ++ ['.', c1, c2])) = none :=
      v2Check_reject _ (by rw [hvalstd]; exact hrej)
    have e6 : searchGen v2p6At
        ('P' :: 'r' :: 'i' :: 'c' :: 'e' :: ':' :: (ds ++ ['.', c1, c2])) = none :=
      searchGen_v2p6_none_noDollar _ fun c hc =>
        class8_ne (hcl8 c hc) (by decide) (by decide)
    simp only [extractCents_v2]
    rw [hclean, e1, e2, e3, e4, e5, e6]
    simp only [e5', v2Check_none]

/-- C3 witness: the suffixed amount `10000000.00$` is at the upper bound
and `v2` abstains on it. -/
theorem extract_v2_out_of_range_witness :
    extractPriceFromText_v2 (String.mk (renderPrice PriceSyntax.dollarAfter
      ['1', '0', '0', '0', '0', '0', '0', '0'] '0' '0')) = none :=
  extract_v2_out_of_range PriceSyntax.dollarAfter
    ['1', '0', '0', '0', '0', '0', '0', '0'] '0' '0'
    (by decide) (by decide) (by decide) (by decide)
    (Or.inr ⟨by
      rw [show digitsVal ['1', '0', '0', '0', '0', '0', '0', '0'] = 10000000
          from by decide,
        show digitsVal ['0', '0'] = 0 from by decide]
      norm_num, by decide⟩)

/-- C3 counterexample: the well-formed comma-grouped price
`"$10,000,000.00"` equals 10,000,000, yet neither parser abstains: `v2`
returns 100000.0 (pattern 6 keeps only a three-digit-aligned prefix of
the digit run) and `v1` returns 10000000.0 (its bare-number pattern has
no range check). -/
theorem extract_out_of_range_counterexample :
    (digitsVal (['1', '0']
        ++ ([['0', '0', '0'], ['0', '0', '0']] : List (List Char)).join) : ℚ)
      + (digitsVal ['0', '0'] : ℚ) / 100 = 10000000 ∧
    extractPriceFromText_v2 (String.mk
        (groupedChars ['1', '0'] [['0', '0', '0'], ['0', '0', '0']] '0' '0'))
      = some 100000 ∧
    extractPriceFromText_v1 (String.mk
        (groupedChars ['1', '0'] [['0', '0', '0'], ['0', '0', '0']] '0' '0'))
      = some 10000000 := by
  refine ⟨?_, ?_, ?_⟩
  · rw [show digitsVal (['1', '0']
        ++ ([['0', '0', '0'], ['0', '0', '0']] : List (List Char)).join) = 10000000
      from by decide, show digitsVal ['0', '0'] = 0 from by decide]
    norm_num
  · unfold extractPriceFromText_v2
    rw [show extractCents_v2 (String.mk
        (groupedChars ['1', '0'] [['0', '0', '0'], ['0', '0', '0']] '0' '0'))
      = some 10000000 from by decide]
    show some (((10000000 : ℕ) : ℚ) / 100) = some 100000
    norm_num
  · unfold extractPriceFromText_v1
    rw [show extractCents_v1 (String.mk
        (groupedChars ['1', '0'] [['0', '0', '0'], ['0', '0', '0']] '0' '0'))
      = some 1000000000 from by decide]
    show some (((1000000000 : ℕ) : ℚ) / 100) = some 10000000
    norm_num

/-! ## C4: the comma-grouped currency-prefixed form -/

theorem strContains_dollar (t : List Char) :
    strContains (String.mk ('$' :: t)) "$" = true := by
  show listContains (String.data "$") ('$' :: t) = true
  rw [show String.data "$" = ['$'] from by decide]
  simp [listContains, listIsPref]

theorem detectCurrency_v2_dollar_head (t : List Char) :
    detectCurrency_v2 (String.mk ('$' :: t)) = "$" := by
  simp only [detectCurrency_v2]
  rw [strContains_dollar t]
  simp

/-- C4: for every well-formed comma-grouped currency-prefixed price with
an in-range amount, `v2`'s `extract_price_from_text` returns exactly the
numeric value with the separators removed, and `detect_currency`
returns `$`. -/
theorem extract_currency_grouped (g0 : List Char) (gs : List (List Char))
    (c1 c2 : Char)
    (hg0 : ∀ c ∈ g0, c.isDigit = true) (hg0ne : g0 ≠ [])
    (hgs : ∀ g ∈ gs, ∀ c ∈ g, c.isDigit = true)
    (h1 : c1.isDigit = true) (h2 : c2.isDigit = true)
    (hlo : 1 / 100 < (digitsVal (g0 ++ gs.join) : ℚ)
      + (digitsVal [c1, c2] : ℚ) / 100)
    (hhi : (digitsVal (g0 ++ gs.join) : ℚ)
      + (digitsVal [c1, c2] : ℚ) / 100 < 10000000) :
    extractPriceFromText_v2 (String.mk (groupedChars g0 gs c1 c2))
        = some ((digitsVal (g0 ++ gs.join) : ℚ) + (digitsVal [c1, c2] : ℚ) / 100) ∧
      detectCurrency_v2 (String.mk (groupedChars g0 gs c1 c2)) = "$" := by
  have hdig : ∀ c ∈ g0 ++ gs.join, c.isDigit = true := by
    intro c hc
    rcases List.mem_append.mp hc with hc | hc
    · exact hg0 c hc
    · obtain ⟨g, hgL, hcg⟩ := List.mem_join.mp hc
      exact hgs g hgL c hcg
  have hjoinne : g0 ++ gs.join ≠ [] := by
    cases g0 with
    | nil => exact absurd rfl hg0ne
    | cons a t => simp
  have hcast : ((100 * digitsVal (g0 ++ gs.join) + digitsVal [c1, c2] : ℕ) : ℚ)
      = 100 * ((digitsVal (g0 ++ gs.join) : ℚ) + (digitsVal [c1, c2] : ℚ) / 100) := by
    push_cast
    ring
  have hloN : 1 < 100 * digitsVal (g0 ++ gs.join) + digitsVal [c1, c2] := by
    have h' : (1 : ℚ)
        < ((100 * digitsVal (g0 ++ gs.join) + digitsVal [c1, c2] : ℕ) : ℚ) := by
      rw [hcast]
      linarith
    exact_mod_cast h'
  have hhiN : 100 * digitsVal (g0 ++ gs.join) + digitsVal [c1, c2] < 1000000000 := by
    have h' : ((100 * digitsVal (g0 ++ gs.join) + digitsVal [c1, c2] : ℕ) : ℚ)
        < 1000000000 := by
      rw [hcast]
      linarith
    exact_mod_cast h'
  have hclean : dropCommasSpaces (String.mk (groupedChars g0 gs c1 c2)).data
      = '$' :: (g0 ++ gs.join) ++ ['.', c1, c2] :=
    clean_grouped g0 gs c1 c2 hg0 hgs h1 h2
  have e1 : searchGen v2p1At ('$' :: (g0 ++ gs.join) ++ ['.', c1, c2])
      = some ((g0 ++ gs.join) ++ ['.', c1, c2]) :=
    searchGen_of_head _ _ _
      (v2p1At_dollarBefore (g0 ++ gs.join) c1 c2 hdig hjoinne h1 h2)
  have hval : centsValOfGroup (dropCommas ((g0 ++ gs.join) ++ ['.', c1, c2]))
      = 100 * digitsVal (g0 ++ gs.join) + digitsVal [c1, c2] := by
    rw [dropCommas_eq_self _ fun c hc =>
      (std_cents_clean _ c1 c2 hdig h1 h2 c hc).1]
    exact centsValOfGroup_std _ c1 c2 [] hdig
  have e1' : v2Check (some ((g0 ++ gs.join) ++ ['.', c1, c2]))
      = some (100 * digitsVal (g0 ++ gs.join) + digitsVal [c1, c2]) := by
    rw [v2Check_accept _ (by rw [hval]; exact ⟨hloN, hhiN⟩), hval]
  constructor
  · suffices hE : extractCents_v2 (String.mk (groupedChars g0 gs c1 c2))
        = some (100 * digitsVal (g0 ++ gs.join) + digitsVal [c1, c2]) by
      unfold extractPriceFromText_v2
      rw [hE]
      show some (((100 * digitsVal (g0 ++ gs.join) + digitsVal [c1, c2] : ℕ) : ℚ) / 100)
        = some ((digitsVal (g0 ++ gs.join) : ℚ) + (digitsVal [c1, c2] : ℚ) / 100)
      rw [hcast]
      congr 1
      ring
    simp only [extractCents_v2]
    rw [hclean, e1]
    simp only [e1']
  · exact detectCurrency_v2_dollar_head _

/-- C4 witness: `"$1,234.56"` yields the price 1234.56 and currency `$`. -/
theorem extract_currency_grouped_witness :
    extractPriceFromText_v2 (String.mk (groupedChars ['1'] [['2', '3', '4']] '5' '6'))
        = some ((digitsVal (['1'] ++ ([['2', '3', '4']] : List (List Char)).join) : ℚ)
          + (digitsVal ['5', '6'] : ℚ) / 100) ∧
      detectCurrency_v2 (String.mk (groupedChars ['1'] [['2', '3', '4']] '5' '6'))
        = "$" :=
  extract_currency_grouped ['1'] [['2', '3', '4']] '5' '6'
    (by decide) (by decide) (by decide) (by decide) (by decide)
    (by
      rw [show digitsVal (['1']
          ++ ([['2', '3', '4']] : List (List Char)).join) = 1234 from by decide,
        show digitsVal ['5', '6'] = 56 from by decide]
      norm_num)
    (by
      rw [show digitsVal (['1']
          ++ ([['2', '3', '4']] : List (List Char)).join) = 1234 from by decide,
        show digitsVal ['5', '6'] = 56 from by decide]
      norm_num)

/-! ## C6: CSV export -/

theorem memStr_iff (k : String) : ∀ l, memStr k l = true ↔ k ∈ l := by
  intro l
  induction l with
  | nil => simp [memStr]
  | cons x t ih =>
    simp only [memStr, List.mem_cons]
    by_cases h : x = k
    · simp [h]
    · rw [if_neg h, ih]
      constructor
      · exact Or.inr
      · rintro (rfl | hm)
        · exact absurd rfl h
        · exact hm

theorem mem_addKey (acc : List String) (k x : String) :
    x ∈ addKey acc k ↔ x ∈ acc ∨ x = k := by
  unfold addKey
  by_cases h : memStr k acc = true
  · rw [if_pos h]
    constructor
    · exact Or.inl
    · rintro (hx | rfl)
      · exact hx
      · exact (memStr_iff _ acc).mp h
  · rw [if_neg h]
    simp [List.mem_append]

theorem nodup_addKey (acc : List String) (k : String) (h : acc.Nodup) :
    (addKey acc k).Nodup := by
  unfold addKey
  by_cases hm : memStr k acc = true
  · rwa [if_pos hm]
  · rw [if_neg hm]
    refine List.Nodup.append h (List.nodup_singleton k) ?_
    intro x hx hk
    rw [List.mem_singleton] at hk
    subst hk
    exact hm ((memStr_iff x acc).mpr hx)

theorem mem_foldl_addKey (keys : List String) : ∀ (acc : List String) (x : String),
    x ∈ keys.foldl addKey acc ↔ x ∈ acc ∨ x ∈ keys := by
  induction keys with
  | nil => simp
  | cons k t ih =>
    intro acc x
    simp only [List.foldl_cons, ih, mem_addKey, List.mem_cons]
    tauto

theorem nodup_foldl_addKey (keys : List String) : ∀ (acc : List String),
    acc.Nodup → (keys.foldl addKey acc).Nodup := by
  induction keys with
  | nil => intro acc h; exact h
  | cons k t ih =>
    intro acc h
    exact ih _ (nodup_addKey acc k h)

theorem mem_unionFold (hist : List (List (String × String))) :
    ∀ (acc : List String) (x : String),
      x ∈ hist.foldl (fun acc r => (recKeys r).foldl addKey acc) acc
        ↔ x ∈ acc ∨ ∃ r ∈ hist, x ∈ recKeys r := by
  induction hist with
  | nil => simp
  | cons r t ih =>
    intro acc x
    simp only [List.foldl_cons, ih, mem_foldl_addKey, List.mem_cons]
    constructor
    · rintro ((hx | hx) | ⟨r', hr', hx⟩)
      · exact Or.inl hx
      · exact Or.inr ⟨r, Or.inl rfl, hx⟩
      · exact Or.inr ⟨r', Or.inr hr', hx⟩
    · rintro (hx | ⟨r', hr' | hr', hx⟩)
      · exact Or.inl (Or.inl hx)
      · subst hr'; exact Or.inl (Or.inr hx)
      · exact Or.inr ⟨r', hr', hx⟩

theorem mem_unionKeys (hist : List (List (String × String))) (x : String) :
    x ∈ unionKeys hist ↔ ∃ r ∈ hist, x ∈ recKeys r := by
  unfold unionKeys
  simpa using mem_unionFold hist [] x

theorem nodup_unionKeys (hist : List (List (String × String))) :
    (unionKeys hist).Nodup := by
  unfold unionKeys
  have : ∀ (acc : List String), acc.Nodup →
      (hist.foldl (fun acc r => (recKeys r).foldl addKey acc) acc).Nodup := by
    induction hist with
    | nil => intro acc h; exact h
    | cons r t ih => intro acc h; exact ih _ (nodup_foldl_addKey _ _ h)
  exact this [] List.nodup_nil

theorem lexLe_total : ∀ a b, lexLe a b = true ∨ lexLe b a = true := by
  intro a
  induction a with
  | nil => intro b; left; cases b <;> rfl
  | cons c as ih =>
    intro b
    cases b with
    | nil => right; rfl
    | cons d bs =>
      by_cases h1 : c.toNat < d.toNat
      · left; simp [lexLe, h1]
      · by_cases h2 : d.toNat < c.toNat
        · right; simp [lexLe, h2]
        · rcases ih bs with h | h
          · left; simp [lexLe, h1, h2, h]
          · right; simp [lexLe, h1, h2, h]

theorem lexLe_trans : ∀ a b c, lexLe a b = true → lexLe b c = true →
    lexLe a c = true := by
  intro a
  induction a with
  | nil => intro b c _ _; cases c <;> rfl
  | cons x as ih =>
    intro b c hab hbc
    cases b with
    | nil => simp [lexLe] at hab
    | cons y bs =>
      cases c with
      | nil => simp [lexLe] at hbc
      | cons z cs =>
        simp only [lexLe] at hab hbc ⊢
        by_cases h1 : x.toNat < y.toNat
        · by_cases h2 : y.toNat < z.toNat
          · simp [show x.toNat < z.toNat by omega]
          · by_cases h3 : z.toNat < y.toNat
            · simp [h2, h3] at hbc
            · simp [show x.toNat < z.toNat by omega]
        · by_cases h4 : y.toNat < x.toNat
          · simp [h1, h4] at hab
          · by_cases h2 : y.toNat < z.toNat
            · simp [show x.toNat < z.toNat by omega]
            · by_cases h3 : z.toNat < y.toNat
              · simp [h2, h3] at hbc
              · have hxz : ¬ x.toNat < z.toNat := by omega
                have hzx : ¬ z.toNat < x.toNat := by omega
                simp only [h1, h4, if_neg, if_false] at hab
                simp only [h2, h3, if_neg, if_false] at hbc
                simp [hxz, hzx, ih bs cs (by simpa using hab) (by simpa using hbc)]

theorem strLe_total (a b : String) : strLe a b = true ∨ strLe b a = true :=
  lexLe_total a.data b.data

theorem strLe_trans (a b c : String) (h1 : strLe a b = true)
    (h2 : strLe b c = true) : strLe a c = true :=
  lexLe_trans a.data b.data c.data h1 h2

theorem mem_insertSorted (x : String) : ∀ (l : List String) (y : String),
    y ∈ insertSorted x l ↔ y = x ∨ y ∈ l := by
  intro l
  induction l with
  | nil => simp [insertSorted]
  | cons z t ih =>
    intro y
    simp only [insertSorted]
    by_cases h : strLe x z = true
    · rw [if_pos h]
      simp [List.mem_cons]
    · rw [if_neg h]
      simp only [List.mem_cons, ih]
      tauto

theorem pairwise_insertSorted (x : String) : ∀ (l : List String),
    l.Pairwise (fun a b => strLe a b = true) →
    (insertSorted x l).Pairwise (fun a b => strLe a b = true) := by
  intro l
  induction l with
  | nil => intro _; simp [insertSorted]
  | cons y ys ih =>
    intro hp
    rw [List.pairwise_cons] at hp
    obtain ⟨hy, hys⟩ := hp
    simp only [insertSorted]
    by_cases h : strLe x y = true
    · rw [if_pos h]
      refine List.pairwise_cons.mpr ⟨?_, List.pairwise_cons.mpr ⟨hy, hys⟩⟩
      intro z hz
      rcases List.mem_cons.mp hz with rfl | hz'
      · exact h
      · exact strLe_trans x y z h (hy z hz')
    · rw [if_neg h]
      have hyx : strLe y x = true := (strLe_total x y).resolve_left h
      refine List.pairwise_cons.mpr ⟨?_, ih hys⟩
      intro z hz
      rcases (mem_insertSorted x ys z).mp hz with rfl | hz'
      · exact hyx
      · exact hy z hz'

theorem nodup_insertSorted (x : String) : ∀ (l : List String),
    l.Nodup → x ∉ l → (insertSorted x l).Nodup := by
  intro l
  induction l with
  | nil => intro _ _; simp [insertSorted]
  | cons y ys ih =>
    intro hnd hx
    rw [List.nodup_cons] at hnd
    simp only [insertSorted]
    by_cases h : strLe x y = true
    · rw [if_pos h]
      refine List.nodup_cons.mpr ⟨hx, List.nodup_cons.mpr hnd⟩
    · rw [if_neg h]
      refine List.nodup_cons.mpr ⟨?_, ih hnd.2 (fun hm => hx (List.mem_cons_of_mem _ hm))⟩
      intro hm
      rcases (mem_insertSorted x ys y).mp hm with rfl | hm'
      · exact hx (List.mem_cons_self _ _)
      · exact hnd.1 hm'

theorem mem_sortKeys : ∀ (l : List String) (y : String), y ∈ sortKeys l ↔ y ∈ l := by
  intro l
  induction l with
  | nil => simp [sortKeys]
  | cons x t ih =>
    intro y
    simp only [sortKeys, mem_insertSorted, ih, List.mem_cons]

theorem pairwise_sortKeys : ∀ (l : List String),
    (sortKeys l).Pairwise (fun a b => strLe a b = true) := by
  intro l
  induction l with
  | nil => simp [sortKeys]
  | cons x t ih => exact pairwise_insertSorted x _ ih

theorem nodup_sortKeys : ∀ (l : List String), l.Nodup → (sortKeys l).Nodup := by
  intro l
  induction l with
  | nil => intro _; simp [sortKeys]
  | cons x t ih =>
    intro h
    rw [List.nodup_cons] at h
    exact nodup_insertSorted x _ (ih h.2) (fun hm => h.1 ((mem_sortKeys t x).mp hm))

/-- The `i`-th cell of a `DictWriter` row is the record's value for the
`i`-th header field, `""` when the record lacks it. -/
theorem cell_of_row : ∀ (fields : List String) (r : List (String × String))
    (i : Nat), i < fields.length →
    (fields.map fun k2 => (lookupFirst r k2).getD "").getD i "MISSING"
      = (lookupFirst r (fields.getD i "")).getD "" := by
  intro fields
  induction fields with
  | nil => intro r i hi; simp at hi
  | cons f fs ih =>
    intro r i hi
    match i with
    | 0 => simp
    | Nat.succ j =>
      simp only [List.map_cons, List.getD_cons_succ]
      exact ih r j (by simpa using hi)

/-- C6 (amended): the API variant's `save_to_csv` writes, for every
non-empty (in particular heterogeneous) history, a header equal to the
duplicate-free, lexicographically sorted union of all field names across
the record set; every record gets a full-width row, and a header field the
record lacks renders as an empty cell at its column position (`DictWriter`
semantics with the default `restval`). -/
theorem saveToCsv_api_spec (hist : List (List (String × String)))
    (hne : hist ≠ []) :
    ∃ fields rows, saveToCsv_api hist = some (fields, rows) ∧
      fields.Nodup ∧
      fields.Pairwise (fun a b => strLe a b = true) ∧
      (∀ k, k ∈ fields ↔ ∃ r ∈ hist, k ∈ recKeys r) ∧
      rows = hist.map (fun r => fields.map fun k => (lookupFirst r k).getD "") ∧
      ∀ r ∈ hist, ∀ i, i < fields.length →
        (fields.map fun k2 => (lookupFirst r k2).getD "").length = fields.length ∧
        (lookupFirst r (fields.getD i "") = none →
          (fields.map fun k2 => (lookupFirst r k2).getD "").getD i "MISSING" = "") := by
  refine ⟨sortKeys (unionKeys hist), _, ?_, nodup_sortKeys _ (nodup_unionKeys hist),
    pairwise_sortKeys _, ?_, rfl, ?_⟩
  · unfold saveToCsv_api
    rw [if_neg hne]
  · intro k
    rw [mem_sortKeys, mem_unionKeys]
  · intro r _ i hi
    refine ⟨by simp, ?_⟩
    intro hk
    rw [cell_of_row _ r i hi, hk]
    rfl

/-- A heterogeneous two-record history: the first record has a `unit`
field, the second does not, and the first record's key order is not
sorted. -/
def exHistCsv : List (List (String × String)) :=
  [[("price", "100"), ("item_name", "Gold"), ("unit", "troy oz")],
   [("price", "90"), ("item_name", "Gold")]]

/-- C6 counterexample: on a non-empty heterogeneous history the `v1`/`v2`
`save_to_csv` writes the first record's keys in insertion order as the
header, which is not the lexicographically sorted union of all field
names. -/
theorem saveToCsv_firstkeys_counterexample :
    (saveToCsv_v1v2 exHistCsv).map Prod.fst = some ["price", "item_name", "unit"] ∧
    sortKeys (unionKeys exHistCsv) = ["item_name", "price", "unit"] ∧
    (["price", "item_name", "unit"] : List String) ≠ ["item_name", "price", "unit"] := by
  decide

theorem saveToCsv_api_witness : saveToCsv_api exHistCsv ≠ none := by
  obtain ⟨f, r, heq, -⟩ := saveToCsv_api_spec exHistCsv (by decide)
  simp [heq]

/-! ## C8: comparison statistics -/

/-- First value bound to a key in an association list with values of any
type (Python dict lookup). -/
def lookupAssoc {β : Type} : List (String × β) → String → Option β
  | [], _ => none
  | p :: t, k => if p.1 = k then some p.2 else lookupAssoc t k

theorem min?_spec (l : List ℚ) (h : l ≠ []) :
    ∃ m, l.min? = some m ∧ m ∈ l ∧ ∀ q ∈ l, m ≤ q := by
  match l with
  | [] => exact absurd rfl h
  | a :: t =>
    have hmin : (a :: t).min? = some (t.foldl min a) := by simp [List.min?]
    refine ⟨t.foldl min a, hmin, List.min?_mem (fun x y => min_choice x y) hmin, ?_⟩
    have := List.le_min?_iff (fun x y z => le_min_iff) hmin
      (x := t.foldl min a)
    exact this.mp le_rfl

theorem max?_spec (l : List ℚ) (h : l ≠ []) :
    ∃ m, l.max? = some m ∧ m ∈ l ∧ ∀ q ∈ l, q ≤ m := by
  match l with
  | [] => exact absurd rfl h
  | a :: t =>
    have hmax : (a :: t).max? = some (t.foldl max a) := by simp [List.max?]
    refine ⟨t.foldl max a, hmax, List.max?_mem (fun x y => max_choice x y) hmax, ?_⟩
    have := List.max?_le_iff (fun x y z => max_le_iff) hmax
      (x := t.foldl max a)
    exact this.mp le_rfl

/-- The summary built for a non-empty record list reports the true
minimum, maximum and arithmetic mean of the `price` fields and lists the
records in order. -/
theorem mkSummary_spec (recs : List CrawlRec) (h : recs ≠ []) :
    (mkSummary recs).prices = recs.map mkEntry ∧
    (∃ m, (mkSummary recs).lowest = some m ∧
      m ∈ recs.map (fun r => r.price) ∧
      ∀ q ∈ recs.map (fun r => r.price), m ≤ q) ∧
    (∃ M, (mkSummary recs).highest = some M ∧
      M ∈ recs.map (fun r => r.price) ∧
      ∀ q ∈ recs.map (fun r => r.price), q ≤ M) ∧
    (mkSummary recs).average
      = some ((recs.map (fun r => r.price)).sum / recs.length) := by
  have hps : recs.map (fun r => r.price) ≠ [] := by
    simpa [List.map_eq_nil_iff] using h
  obtain ⟨m, hm, hmem, hle⟩ := min?_spec _ hps
  obtain ⟨M, hM, hMmem, hMle⟩ := max?_spec _ hps
  refine ⟨rfl, ⟨m, ?_, hmem, hle⟩, ⟨M, ?_, hMmem, hMle⟩, ?_⟩
  · simp [mkSummary, hps, hm]
  · simp [mkSummary, hps, hM]
  · simp [mkSummary, hps]

/-- The keys of the comparison output are among the input keys. -/
theorem lookupAssoc_comparePrices_none (results : List (String × List CrawlRec))
    (item : String) (h : item ∉ results.map Prod.fst) :
    lookupAssoc (comparePrices results) item = none := by
  induction results with
  | nil => rfl
  | cons p rest ih =>
    have h1 : p.1 ≠ item := by
      intro he; exact h (by simp [he])
    have h2 : item ∉ rest.map Prod.fst := by
      intro hm; exact h (by simp [hm])
    simp only [comparePrices, List.filterMap_cons] at *
    by_cases hp : p.2 = []
    · simp only [hp, if_pos rfl]
      exact ih h2
    · simp only [if_neg hp]
      simpa [lookupAssoc, h1] using ih h2

/-- C8: `compare_prices` is a function of the collected mapping that, for
every item with at least one successful record, reports the minimum,
maximum and arithmetic mean of the records' `price` fields (and the
records themselves in order), and omits every item with zero successful
records from the output mapping entirely. -/
theorem comparePrices_spec (results : List (String × List CrawlRec))
    (hnd : (results.map Prod.fst).Nodup) (item : String)
    (recs : List CrawlRec) (hmem : (item, recs) ∈ results) :
    (recs = [] → lookupAssoc (comparePrices results) item = none) ∧
    (recs ≠ [] → ∃ s, lookupAssoc (comparePrices results) item = some s ∧
      s.prices = recs.map mkEntry ∧
      (∃ m, s.lowest = some m ∧ m ∈ recs.map (fun r => r.price) ∧
        ∀ q ∈ recs.map (fun r => r.price), m ≤ q) ∧
      (∃ M, s.highest = some M ∧ M ∈ recs.map (fun r => r.price) ∧
        ∀ q ∈ recs.map (fun r => r.price), q ≤ M) ∧
      s.average = some ((recs.map (fun r => r.price)).sum / recs.length)) := by
  induction results with
  | nil => cases hmem
  | cons p rest ih =>
    have hnd1 : p.1 ∉ rest.map Prod.fst := (List.nodup_cons.mp hnd).1
    have hnd2 : (rest.map Prod.fst).Nodup := (List.nodup_cons.mp hnd).2
    rcases List.mem_cons.mp hmem with he | hr
    · cases he
      constructor
      · intro hnil
        simp only [comparePrices, List.filterMap_cons, hnil, if_pos rfl]
        exact lookupAssoc_comparePrices_none rest item hnd1
      · intro hne
        refine ⟨mkSummary recs, ?_, mkSummary_spec recs hne⟩
        simp [comparePrices, List.filterMap_cons, hne, lookupAssoc]
    · have hkey : item ≠ p.1 := by
        intro he
        exact hnd1 (he ▸ (List.mem_map.mpr ⟨(item, recs), hr, rfl⟩))
      have := ih hnd2 hr
      constructor
      · intro hnil
        simp only [comparePrices, List.filterMap_cons]
        by_cases hp : p.2 = []
        · simp only [hp, if_pos rfl]
          exact (this.1) hnil
        · simp only [if_neg hp]
          simpa [lookupAssoc, Ne.symm hkey] using (this.1) hnil
      · intro hne
        obtain ⟨s, hs, hrest⟩ := (this.2) hne
        refine ⟨s, ?_, hrest⟩
        simp only [comparePrices, List.filterMap_cons]
        by_cases hp : p.2 = []
        · simpa only [hp, if_pos rfl] using hs
        · simp only [if_neg hp]
          simpa [lookupAssoc, Ne.symm hkey] using hs

/-- A concrete record for the comparison witness. -/
def recC8 : CrawlRec :=
  { item_name := "gold", title := "gold", price := 7, currency := "$",
    url := "u", timestamp := "t", source := "s" }

theorem comparePrices_witness :
    lookupAssoc (comparePrices [("gold", [recC8]), ("empty", [])]) "empty" = none ∧
    (lookupAssoc (comparePrices [("gold", [recC8]), ("empty", [])]) "gold").isSome
      = true := by
  constructor
  · exact (comparePrices_spec [("gold", [recC8]), ("empty", [])] (by decide)
      "empty" [] (List.mem_cons_of_mem _ (List.mem_cons_self _ _))).1 rfl
  · obtain ⟨s, hs, -⟩ := (comparePrices_spec [("gold", [recC8]), ("empty", [])]
      (by decide) "gold" [recC8] (List.mem_cons_self _ _)).2 (by simp)
    simp [hs]

/-! ## C7: the per-item success cap with early exit -/

/-- Loop invariant of the candidate-URL loop: the produced records are the
successful extractions of exactly the attempted prefix of the URL list,
the attempt count never exceeds the candidate count, the accumulated
record count never exceeds the cap, the whole list is attempted when the
cap is not reached, and when the cap is reached no strictly shorter
prefix of attempts would already have reached it (early exit). -/
theorem crawlLoop_invariant {α : Type} (f : α → Option CrawlRec) (cap : Nat) :
    ∀ (urls : List α) (found : List CrawlRec), found.length < cap →
      (crawlLoop f cap urls found).1
          = found ++ (urls.take (crawlLoop f cap urls found).2).filterMap f ∧
      (crawlLoop f cap urls found).2 ≤ urls.length ∧
      (crawlLoop f cap urls found).1.length ≤ cap ∧
      ((crawlLoop f cap urls found).1.length < cap →
        (crawlLoop f cap urls found).2 = urls.length) ∧
      ((crawlLoop f cap urls found).1.length = cap →
        ∀ m, m < (crawlLoop f cap urls found).2 →
          (found ++ (urls.take m).filterMap f).length < cap) := by
  intro urls
  induction urls with
  | nil =>
    intro found hlt
    refine ⟨by simp [crawlLoop], by simp [crawlLoop], ?_, ?_, ?_⟩
    · simpa [crawlLoop] using Nat.le_of_lt hlt
    · intro _; simp [crawlLoop]
    · intro heq
      exact absurd (by simpa [crawlLoop] using heq) (Nat.ne_of_lt hlt)
  | cons u us ih =>
    intro found hlt
    cases h : f u with
    | none =>
      have hrec := ih found hlt
      simp only [crawlLoop, h]
      obtain ⟨h1, h2, h3, h4, h5⟩ := hrec
      refine ⟨?_, by simp only [List.length_cons]; omega, h3,
              fun hl => by rw [h4 hl]; simp, ?_⟩
      · simpa [List.filterMap_cons, h] using h1
      · intro heq m hm
        match m with
        | 0 => simpa using hlt
        | Nat.succ m' =>
          have := h5 heq m' (by omega)
          simpa [List.filterMap_cons, h] using this
    | some r =>
      by_cases hc : cap ≤ (found ++ [r]).length
      · have hloop : crawlLoop f cap (u :: us) found = (found ++ [r], 1) := by
          simp only [crawlLoop, h]
          rw [if_pos hc]
        rw [hloop]
        refine ⟨by simp [List.filterMap_cons, h], by simp, ?_, ?_, ?_⟩
        · simpa using hlt
        · intro hl
          exact absurd hc (by simpa using Nat.not_le_of_lt hl)
        · intro _ m hm
          have : m = 0 := by omega
          subst this
          simpa using hlt
      · have hlt2 : (found ++ [r]).length < cap := Nat.lt_of_not_le hc
        have hrec := ih (found ++ [r]) hlt2
        have hloop : crawlLoop f cap (u :: us) found
            = ((crawlLoop f cap us (found ++ [r])).1,
               (crawlLoop f cap us (found ++ [r])).2 + 1) := by
          simp only [crawlLoop, h]
          rw [if_neg hc]
        rw [hloop]
        obtain ⟨h1, h2, h3, h4, h5⟩ := hrec
        refine ⟨?_, by simp only [List.length_cons]; omega, h3,
                fun hl => by rw [h4 hl]; simp, ?_⟩
        · simpa [List.filterMap_cons, h] using h1
        · intro heq m hm
          match m with
          | 0 => simpa using hlt
          | Nat.succ m' =>
            have := h5 heq m' (by omega)
            simpa [List.filterMap_cons, h] using this

/-- C7: for any candidate-URL list and any adapter behaviour, the `v1`
loop with `min_results = 3` produces at most 3 successful records, the
records are the successes of exactly the attempted URL prefix, every URL
is attempted when fewer than 3 succeed, and as soon as the 3rd success
occurs no further URL is attempted; the `v2` loop (cap hard-coded to 3
over `urls[:max_results]`) also produces at most 3 records. -/
theorem searchAndCrawl_cap_spec {α : Type} (f : α → Option CrawlRec)
    (urls : List α) (maxResults : Nat) :
    (searchAndCrawl_v1 f 3 urls).1
        = (urls.take (searchAndCrawl_v1 f 3 urls).2).filterMap f ∧
    (searchAndCrawl_v1 f 3 urls).1.length ≤ 3 ∧
    (searchAndCrawl_v1 f 3 urls).2 ≤ urls.length ∧
    ((searchAndCrawl_v1 f 3 urls).1.length < 3 →
      (searchAndCrawl_v1 f 3 urls).2 = urls.length) ∧
    ((searchAndCrawl_v1 f 3 urls).1.length = 3 →
      ∀ m, m < (searchAndCrawl_v1 f 3 urls).2 →
        ((urls.take m).filterMap f).length < 3) ∧
    (searchAndCrawl_v2 f maxResults urls).1.length ≤ 3 := by
  have h1 := crawlLoop_invariant f 3 urls [] (by simp)
  have h2 := crawlLoop_invariant f 3 (urls.take maxResults) [] (by simp)
  obtain ⟨a1, a2, a3, a4, a5⟩ := h1
  refine ⟨by simpa [searchAndCrawl_v1] using a1,
          by simpa [searchAndCrawl_v1] using a3,
          by simpa [searchAndCrawl_v1] using a2,
          by simpa [searchAndCrawl_v1] using a4, ?_, ?_⟩
  · intro heq m hm
    have := a5 (by simpa [searchAndCrawl_v1] using heq) m
      (by simpa [searchAndCrawl_v1] using hm)
    simpa using this
  · simpa [searchAndCrawl_v2] using h2.2.2.1

/-- A fixed record and adapter for the cap witness: even-numbered URLs
succeed. -/
def crawlRecW : CrawlRec :=
  { item_name := "w", title := "w", price := 1, currency := "$",
    url := "u", timestamp := "t", source := "s" }

/-- Witness adapter: crawling URL `n` succeeds exactly when `n` is even. -/
def crawlFW : Nat → Option CrawlRec :=
  fun n => if n % 2 = 0 then some crawlRecW else none

theorem searchAndCrawl_cap_witness :
    (searchAndCrawl_v1 crawlFW 3 [0, 1, 2, 3, 4, 5, 6, 7, 8, 9]).1.length ≤ 3 :=
  (searchAndCrawl_cap_spec crawlFW [0, 1, 2, 3, 4, 5, 6, 7, 8, 9] 15).2.1

theorem searchItem_crypto_precedence_witness :
    ∃ p ∈ cryptoMap, strContains (pyLowerStrip "Bitcoin Gold Fund") p.1 = true ∧
      searchItem envCryptoNoChange "Bitcoin Gold Fund"
        = fetchCryptoPrice envCryptoNoChange p.2 "Bitcoin Gold Fund" :=
  searchItem_crypto_precedence envCryptoNoChange "Bitcoin Gold Fund"
    ⟨("bitcoin", "bitcoin"), by decide, by decide⟩
    ⟨("gold", "XAU"), by decide, by decide⟩
